/-
Verification of the temcode language-server client subsystem.

This file gives a shallow embedding, in Lean 4, of the protocol and algorithmic
core of the temcode editor's LSP client:

  * the framing codec and read-side buffering of `LspClient._send_message` /
    `LspClient._on_stdout_ready` (src/temcode/lsp/client.py),
  * the request-id allocator and connection lifecycle
    (`LspClient._send_request`, `LspClient._start_process`, `LspClient.stop`,
    `LspClient.ensure_started`),
  * per-document synchronization (`LspClient.open_or_change_document`,
    `LspClient._flush_pending_document_sync`),
  * the workspace-edit applier and position mapper
    (`MainWindow._apply_workspace_edit`, `MainWindow._apply_text_edits_to_file`,
    `MainWindow._sort_text_edits_descending`, `MainWindow._text_position_from_lsp`).

Modeling conventions, stated once here:

  * Byte streams are modeled as `List Char`; a "byte" is one list element.  The
    framing code counts `Content-Length` in bytes of the UTF-8 encoding; in the
    model the length function is `List.length` of the same list used on both
    the encode and the decode side, so every framing-level statement is
    faithful.  The ASCII fragment (all protocol syntax) is represented exactly.
  * JSON payloads are values of the inductive type `Json` below (the JSON data
    model: null, booleans, integers, strings, arrays, objects).  Python's
    `json.dumps(..., ensure_ascii=False, separators=(",", ":"))` and
    `json.loads` are modeled by `dumpsVal` / `loads`.  Numbers are modeled as
    integers: every number occurring in this protocol is an integer, and
    floating-point serialization is outside the model.
  * Python line splitting (`str.splitlines(keepends=True)`) is modeled for the
    line terminators `\n`, `\r` and `\r\n`.  The rarer control characters that
    Python additionally treats as line breaks (`\v`, `\f`, `\x1c`..`\x1e`,
    `\x85`, `\u2028`, `\u2029`) are outside the modeled character set, matching
    the code's own `rstrip("\r\n")` which only strips `\r` and `\n`.
  * Python dicts are modeled as association lists with Python's dict-update
    semantics: assigning to an existing key overwrites the value in place and
    keeps the key's original insertion position (`dictSet` below).
  * `os.path.abspath`, `os.path.isdir`, `os.getcwd`, `os.path.normcase` and
    process spawnability are modeled as components of an explicit environment
    record `Env`, universally quantified in the theorems.
  * `path_to_uri` / `uri_to_path` round-trip a file path through a `file://`
    URI; the model represents this round trip as the identity on the stored
    URI string (percent-encoding of special characters is outside the modeled
    character set and irrelevant to every claim below).
-/
import Mathlib

set_option linter.unusedVariables false

namespace Temcode

/-! ## Basic character and digit utilities -/

/-- Decimal digit characters `'0'..'9'` (as used by `int()` and by JSON). -/
def isDigitChar (c : Char) : Bool := 48 ≤ c.toNat && c.toNat ≤ 57

/-- The character for a single decimal digit. -/
def digitChar (d : Nat) : Char := Char.ofNat (48 + d)

/-- The numeric value of a decimal digit character. -/
def digitVal (c : Char) : Nat := c.toNat - 48

/-- Little-endian decimal digits of `n`, with explicit fuel so that the
definition is structurally recursive (hence computable by the kernel). -/
def natDigitsAux : Nat → Nat → List Nat
  | 0, _ => []
  | fuel + 1, n => if n = 0 then [] else n % 10 :: natDigitsAux fuel (n / 10)

/-- Little-endian decimal digits of `n` (empty for `n = 0`). -/
def natDigitsLE (n : Nat) : List Nat := natDigitsAux (n + 1) n

/-- The decimal representation of a natural number, as Python's `str`/`repr`
and `json.dumps` produce it. -/
def natRepr (n : Nat) : List Char :=
  if n = 0 then ['0'] else (natDigitsLE n).reverse.map digitChar

/-- The decimal representation of an integer (used by `json.dumps` for the
`Content-Length` value and for JSON numbers). -/
def intRepr (n : Int) : List Char :=
  if n < 0 then '-' :: natRepr (-n).toNat else natRepr n.toNat

/-- Accumulate decimal digit characters left to right, as positional value. -/
def digitsVal (l : List Char) : Nat := l.foldl (fun a c => a * 10 + digitVal c) 0

/-- The whitespace set of Python's `str.strip()` with no argument. -/
def isPySpace (c : Char) : Bool :=
  c = ' ' || c = '\t' || c = '\n' || c = '\r' || c = '\x0b' || c = '\x0c'

/-- Python `str.strip()`: remove leading and trailing whitespace. -/
def pyStrip (l : List Char) : List Char :=
  ((l.dropWhile isPySpace).reverse.dropWhile isPySpace).reverse

/-- Python `int(s)` on a string: optional surrounding whitespace, an optional
sign, then one or more decimal digits.  Returns `none` where Python raises
`ValueError`.  (Underscore digit grouping and non-ASCII digits, which Python
also accepts, are outside the modeled character set.) -/
def pyIntOfString (l : List Char) : Option Int :=
  let s := pyStrip l
  let signAndDigits : Bool × List Char :=
    match s with
    | [] => (false, [])
    | c :: r =>
      if c = '-' then (true, r) else if c = '+' then (false, r) else (false, c :: r)
  let neg := signAndDigits.1
  let ds := signAndDigits.2
  if ds ≠ [] ∧ ds.all isDigitChar then
    some (if neg then -(digitsVal ds : Int) else (digitsVal ds : Int))
  else none

/-- ASCII lower-casing of a character, as `str.lower()` acts on the ASCII
range (the only range occurring in protocol headers). -/
def lowerChar (c : Char) : Char :=
  if 65 ≤ c.toNat ∧ c.toNat ≤ 90 then Char.ofNat (c.toNat + 32) else c

/-- `str.lower()` on the modeled character range. -/
def pyLower (l : List Char) : List Char := l.map lowerChar

/-- Python dict assignment `d[k] = v`: overwrite in place if the key exists
(keeping its insertion position), otherwise append at the end.  This is the
ordering semantics of CPython dicts relied on throughout the client. -/
def dictSet {β : Type} (k : String) (v : β) : List (String × β) → List (String × β)
  | [] => [(k, v)]
  | (k', v') :: rest => if k' = k then (k', v) :: rest else (k', v') :: dictSet k v rest

/-- Python `dict.get(k)`: the value of the first (unique) matching key. -/
def dictGet {β : Type} (k : String) : List (String × β) → Option β
  | [] => none
  | (k', v') :: rest => if k' = k then some v' else dictGet k rest

/-- Python `dict.pop(k, None)`: drop the entry for `k` if present. -/
def dictPop {β : Type} (k : String) : List (String × β) → List (String × β)
  | [] => []
  | (k', v') :: rest => if k' = k then rest else (k', v') :: dictPop k rest

/-! ## Position mapper: `MainWindow._text_position_from_lsp`

`_text_position_from_lsp(content, line, character)` splits the content with
`content.splitlines(keepends=True)`, clamps `line`/`character` below by 0,
returns 0 for empty content, returns `len(content)` when `line` is at or past
the line count, and otherwise returns the total length of the lines before
`line` plus `min(character, len(line_text.rstrip("\r\n")))`. -/

/-- Line-break characters of the model (see the header comment). -/
def isBreakChar (c : Char) : Bool := c = '\n' || c = '\r'

/-- Split off the first line of `l`, keeping its terminator: the longest
break-free head, plus one of `"\n"`, `"\r\n"`, `"\r"` if present.  Returns the
line and the remainder. -/
def takeLine (l : List Char) : List Char × List Char :=
  let pre := l.takeWhile fun c => !isBreakChar c
  match l.dropWhile (fun c => !isBreakChar c) with
  | [] => (pre, [])
  | b :: r =>
    if b = '\r' then
      match r with
      | [] => (pre ++ ['\r'], [])
      | c2 :: r2 =>
        if c2 = '\n' then (pre ++ ['\r', '\n'], r2) else (pre ++ ['\r'], c2 :: r2)
    else (pre ++ [b], r)

/-- `str.splitlines(keepends=True)` on the modeled terminator set, defined by
direct structural recursion on the character list. -/
def splitlinesKeepends : List Char → List (List Char)
  | [] => []
  | c :: rest =>
    if c = '\n' then ['\n'] :: splitlinesKeepends rest
    else if c = '\r' then
      match rest with
      | [] => [['\r']]
      | c2 :: rest2 =>
        if c2 = '\n' then ['\r', '\n'] :: splitlinesKeepends rest2
        else ['\r'] :: splitlinesKeepends (c2 :: rest2)
    else
      match splitlinesKeepends rest with
      | [] => [[c]]
      | line :: lines => (c :: line) :: lines

/-- `line_text.rstrip("\r\n")`: remove trailing carriage returns / newlines. -/
def rstripCrLf (l : List Char) : List Char :=
  (l.reverse.dropWhile fun c => c = '\r' || c = '\n').reverse

/-- The body of `MainWindow._text_position_from_lsp` after the `max(0, ...)`
clamping, on natural-number coordinates.  The `for` loop summing
`len(lines[index])` for `index < normalized_line` is rendered as the sum of
the lengths of `lines.take normalized_line`. -/
def textPosCore (content : List Char) (normalized_line normalized_character : Nat) : Nat :=
  if splitlinesKeepends content = [] then 0
  else if (splitlinesKeepends content).length ≤ normalized_line then content.length
  else
    (((splitlinesKeepends content).take normalized_line).map List.length).sum +
      min normalized_character
        (rstripCrLf ((splitlinesKeepends content).getD normalized_line [])).length

/-- `MainWindow._text_position_from_lsp(content, line, character)`.
`Int.toNat` is exactly Python's `max(0, int(x))` for integer `x`. -/
def text_position_from_lsp (content : List Char) (line character : Int) : Nat :=
  textPosCore content line.toNat character.toNat

/-! ## The JSON data model and `json.dumps` / `json.loads`

`Json` is the JSON value universe used by the protocol (numbers restricted to
integers, see the header comment).  `dumpsVal` is
`json.dumps(payload, ensure_ascii=False, separators=(",", ":"))`: compact
separators, no whitespace, `ensure_ascii=False` so only `"`, `\` and control
characters are escaped.  `loads` is a strict recursive-descent `json.loads`
restricted to the compact grammar the codec ever produces (whitespace
tolerance and surrogate-pair `\u` escapes of `json.loads` are outside the
model; they cannot occur in any round trip below). -/

inductive Json where
  | null
  | bool (b : Bool)
  | num (n : Int)
  | str (s : List Char)
  | arr (elements : List Json)
  | obj (fields : List (List Char × Json))

/-- Lowercase hexadecimal digit character, as `json.dumps` emits in `\uXXXX`. -/
def hexDigitChar (d : Nat) : Char :=
  if d < 10 then Char.ofNat (48 + d) else Char.ofNat (87 + d)

/-- The escape `json.dumps` applies to one character with `ensure_ascii=False`:
`"` and `\` get a backslash escape, the common control characters get their
two-character forms, all other control characters below `0x20` get `\u00XX`,
and everything else is emitted verbatim. -/
def escChar (c : Char) : List Char :=
  if c = '"' then ['\\', '"']
  else if c = '\\' then ['\\', '\\']
  else if c = '\n' then ['\\', 'n']
  else if c = '\r' then ['\\', 'r']
  else if c = '\t' then ['\\', 't']
  else if c = '\x08' then ['\\', 'b']
  else if c = '\x0c' then ['\\', 'f']
  else if c.toNat < 32 then
    ['\\', 'u', '0', '0', hexDigitChar (c.toNat / 16), hexDigitChar (c.toNat % 16)]
  else [c]

/-- String-body serialization: each character escaped as `json.dumps` does. -/
def escapeChars : List Char → List Char
  | [] => []
  | c :: rest => escChar c ++ escapeChars rest

mutual

/-- `json.dumps(v, ensure_ascii=False, separators=(",", ":"))`. -/
def dumpsVal : Json → List Char
  | .null => "null".data
  | .bool true => "true".data
  | .bool false => "false".data
  | .num n => intRepr n
  | .str s => '"' :: escapeChars s ++ ['"']
  | .arr [] => "[]".data
  | .arr (e :: es) => '[' :: dumpsVal e ++ dumpsArrRest es ++ [']']
  | .obj [] => "\x7b\x7d".data
  | .obj ((k, v) :: fs) =>
    '\x7b' :: '"' :: escapeChars k ++ '"' :: ':' :: dumpsVal v ++ dumpsObjRest fs ++ ['\x7d']

/-- Remaining array elements, each preceded by the compact `","` separator. -/
def dumpsArrRest : List Json → List Char
  | [] => []
  | e :: es => ',' :: dumpsVal e ++ dumpsArrRest es

/-- Remaining object fields, each preceded by the compact `","` separator. -/
def dumpsObjRest : List (List Char × Json) → List Char
  | [] => []
  | (k, v) :: fs => ',' :: '"' :: escapeChars k ++ '"' :: ':' :: dumpsVal v ++ dumpsObjRest fs

end

/-- Hexadecimal digit value of a character, for `\uXXXX` escapes. -/
def hexVal? (c : Char) : Option Nat :=
  if 48 ≤ c.toNat ∧ c.toNat ≤ 57 then some (c.toNat - 48)
  else if 97 ≤ c.toNat ∧ c.toNat ≤ 102 then some (c.toNat - 87)
  else if 65 ≤ c.toNat ∧ c.toNat ≤ 70 then some (c.toNat - 55)
  else none

/-- The inverse of the two-character escapes accepted by `json.loads`. -/
def unescChar (e : Char) : Option Char :=
  if e = '"' then some '"'
  else if e = '\\' then some '\\'
  else if e = '/' then some '/'
  else if e = 'n' then some '\n'
  else if e = 'r' then some '\r'
  else if e = 't' then some '\t'
  else if e = 'b' then some '\x08'
  else if e = 'f' then some '\x0c'
  else none

/-- Parse a JSON string body (after the opening quote) up to and including the
closing quote.  Unescaped control characters are rejected, as `json.loads`
rejects them in strict mode. -/
def parseStringBody : List Char → Option (List Char × List Char)
  | [] => none
  | c :: rest =>
    if c = '"' then some ([], rest)
    else if c = '\\' then
      match rest with
      | [] => none
      | e :: rest2 =>
        if e = 'u' then
          match rest2 with
          | h1 :: h2 :: h3 :: h4 :: rest3 =>
            match hexVal? h1, hexVal? h2, hexVal? h3, hexVal? h4 with
            | some a, some b, some c3, some d =>
              let n := ((a * 16 + b) * 16 + c3) * 16 + d
              if n.isValidChar then
                match parseStringBody rest3 with
                | some (s, r) => some (Char.ofNat n :: s, r)
                | none => none
              else none
            | _, _, _, _ => none
          | _ => none
        else
          match unescChar e with
          | some d =>
            match parseStringBody rest2 with
            | some (s, r) => some (d :: s, r)
            | none => none
          | none => none
    else if c.toNat < 32 then none
    else
      match parseStringBody rest with
      | some (s, r) => some (c :: s, r)
      | none => none

/-- Parse a nonempty run of decimal digits as a natural number. -/
def parseNatDigits (s : List Char) : Option (Nat × List Char) :=
  let ds := s.takeWhile isDigitChar
  if ds = [] then none else some (digitsVal ds, s.dropWhile isDigitChar)

mutual

/-- Recursive-descent JSON value, with fuel for structural recursion. -/
def parseVal : Nat → List Char → Option (Json × List Char)
  | 0, _ => none
  | fuel + 1, s =>
    match s with
    | [] => none
    | c :: r1 =>
      if c = 'n' then
        if r1.take 3 = ['u', 'l', 'l'] then some (.null, r1.drop 3) else none
      else if c = 't' then
        if r1.take 3 = ['r', 'u', 'e'] then some (.bool true, r1.drop 3) else none
      else if c = 'f' then
        if r1.take 4 = ['a', 'l', 's', 'e'] then some (.bool false, r1.drop 4) else none
      else if c = '"' then
        match parseStringBody r1 with
        | some (str, r) => some (.str str, r)
        | none => none
      else if c = '[' then
        match r1 with
        | [] => none
        | c2 :: r2 =>
          if c2 = ']' then some (.arr [], r2)
          else
            match parseItems fuel (c2 :: r2) with
            | some (es, r) => some (.arr es, r)
            | none => none
      else if c = '\x7b' then
        match r1 with
        | [] => none
        | c2 :: r2 =>
          if c2 = '\x7d' then some (.obj [], r2)
          else
            match parseFields fuel (c2 :: r2) with
            | some (fs, r) => some (.obj fs, r)
            | none => none
      else if c = '-' then
        match parseNatDigits r1 with
        | some (n, r) => some (.num (-(n : Int)), r)
        | none => none
      else if isDigitChar c then
        match parseNatDigits (c :: r1) with
        | some (n, r) => some (.num (n : Int), r)
        | none => none
      else none

/-- One or more comma-separated array elements followed by `]`. -/
def parseItems : Nat → List Char → Option (List Json × List Char)
  | 0, _ => none
  | fuel + 1, s =>
    match parseVal fuel s with
    | some (j, r) =>
      match r with
      | [] => none
      | c :: r2 =>
        if c = ',' then
          match parseItems fuel r2 with
          | some (es, r3) => some (j :: es, r3)
          | none => none
        else if c = ']' then some ([j], r2)
        else none
    | none => none

/-- One or more comma-separated `"key":value` fields followed by the closing
brace. -/
def parseFields : Nat → List Char → Option (List (List Char × Json) × List Char)
  | 0, _ => none
  | fuel + 1, s =>
    match s with
    | [] => none
    | c :: r1 =>
      if c = '"' then
        match parseStringBody r1 with
        | some (k, r2) =>
          match r2 with
          | [] => none
          | c2 :: r3 =>
            if c2 = ':' then
              match parseVal fuel r3 with
              | some (v, r4) =>
                match r4 with
                | [] => none
                | c3 :: r5 =>
                  if c3 = ',' then
                    match parseFields fuel r5 with
                    | some (fs, r6) => some ((k, v) :: fs, r6)
                    | none => none
                  else if c3 = '\x7d' then some ([(k, v)], r5)
                  else none
              | none => none
            else none
        | none => none
      else none

end

/-- `json.loads` on a complete body: parse one value and require that the
whole input is consumed (a `JSONDecodeError`, e.g. on an empty body, is
`none`). -/
def loads (body : List Char) : Option Json :=
  match parseVal (body.length + 1) body with
  | some (j, []) => some j
  | _ => none

mutual

/-- Structural size of a JSON value, used as a fuel bound for `parseVal`. -/
def jsize : Json → Nat
  | .null => 1
  | .bool _ => 1
  | .num _ => 1
  | .str _ => 1
  | .arr es => asize es + 1
  | .obj fs => osize fs + 1

/-- Size of an array tail. -/
def asize : List Json → Nat
  | [] => 1
  | e :: es => jsize e + asize es + 1

/-- Size of an object tail. -/
def osize : List (List Char × Json) → Nat
  | [] => 1
  | (_, v) :: fs => jsize v + osize fs + 1

end

/-! ## Workspace edit application

`MainWindow._sort_text_edits_descending`, `MainWindow._apply_text_edits_to_file`
and `MainWindow._apply_workspace_edit`.  Edits are the dict-shaped `Json`
values the server sent; field extraction mirrors the defensive
`isinstance` / `int()` handling of the source.  The filesystem is a function
`String → Option (List Char)` (`none` = missing file or `OSError` on read),
and writability is a predicate (`false` = `OSError` on write).  No open
editors are modeled: the claims under verification concern the
direct-to-disk path `_apply_text_edits_to_file` (the `open_editor is None`
branch of `_apply_workspace_edit`). -/

/-- Lookup in a JSON object's field list (`dict.get` on the parsed payload). -/
def assocLookup : List (List Char × Json) → List Char → Option Json
  | [], _ => none
  | (k', v) :: rest, k => if k' = k then some v else assocLookup rest k

/-- `payload.get(key)` when the payload is a dict, `none` otherwise. -/
def jget (j : Json) (k : List Char) : Option Json :=
  match j with
  | .obj fs => assocLookup fs k
  | _ => none

/-- Python `int(v)` on a JSON value: ints are themselves, bools are 0/1
(`bool` is an `int` subclass), strings are parsed, everything else raises
`TypeError` (`none`). -/
def pyIntOfJson (v : Json) : Option Int :=
  match v with
  | .num n => some n
  | .bool b => some (if b then 1 else 0)
  | .str s => pyIntOfString s
  | _ => none

/-- One coordinate of `_sort_text_edits_descending.sort_key`: missing field
defaults to 0, and a failing `int()` conversion is caught and becomes 0. -/
def sortKeyField (fs : List (List Char × Json)) (name : List Char) : Int :=
  match assocLookup fs name with
  | none => 0
  | some v => (pyIntOfJson v).getD 0

/-- `MainWindow._sort_text_edits_descending.sort_key(edit)`. -/
def editSortKey (edit : Json) : Int × Int :=
  match jget edit ("range".data) with
  | some (Json.obj rfs) =>
    match assocLookup rfs ("start".data) with
    | some (Json.obj sfs) =>
      (sortKeyField sfs ("line".data), sortKeyField sfs ("character".data))
    | _ => (0, 0)
  | _ => (0, 0)

/-- Strict lexicographic order on `(line, character)` sort keys (Python tuple
`<`). -/
def keyLt (a b : Int × Int) : Bool :=
  decide (a.1 < b.1 ∨ (a.1 = b.1 ∧ a.2 < b.2))

/-- Insert into a descending-sorted list, after every element with a
strictly greater-or-equal key: this is where the stability of Python's
`sorted` lives (equal keys keep their original relative order). -/
def insertEditDesc (e : Json) : List Json → List Json
  | [] => [e]
  | x :: xs =>
    if keyLt (editSortKey e) (editSortKey x) then x :: insertEditDesc e xs
    else e :: x :: xs

/-- `MainWindow._sort_text_edits_descending(edits)`:
`sorted(edits, key=sort_key, reverse=True)`.  Python's `sorted` is a stable
sort; any stable sort computes the same list, and it is modeled here by a
stable insertion sort. -/
def sort_text_edits_descending (edits : List Json) : List Json :=
  edits.foldr insertEditDesc []

/-- Extract `(start.line, start.character, end.line, end.character)` from one
edit as `_apply_text_edits_to_file` does: the `range`, `start` and `end`
payloads must be dicts (else the edit is skipped), missing coordinates
default (`end` defaulting to the already-converted `start`), and any failing
`int()` conversion skips the edit. -/
def rangeStartEnd (edit : Json) : Option (Int × Int × Int × Int) :=
  match jget edit ("range".data) with
  | some (Json.obj rfs) =>
    match assocLookup rfs ("start".data), assocLookup rfs ("end".data) with
    | some (Json.obj sfs), some (Json.obj efs) =>
      (match assocLookup sfs ("line".data) with
        | none => some 0
        | some v => pyIntOfJson v).bind fun start_line =>
      (match assocLookup sfs ("character".data) with
        | none => some 0
        | some v => pyIntOfJson v).bind fun start_character =>
      (match assocLookup efs ("line".data) with
        | none => some start_line
        | some v => pyIntOfJson v).bind fun end_line =>
      (match assocLookup efs ("character".data) with
        | none => some start_character
        | some v => pyIntOfJson v).bind fun end_character =>
      some (start_line, start_character, end_line, end_character)
    | _, _ => none
  | _ => none

/-- `edit.get("newText")`, empty string when missing or not a string. -/
def newTextOf (edit : Json) : List Char :=
  match jget edit ("newText".data) with
  | some (Json.str s) => s
  | _ => []

/-- `content[:start] + replacement + content[end:]`. -/
def spliceAt (content : List Char) (s e : Nat) (repl : List Char) : List Char :=
  content.take s ++ repl ++ content.drop e

/-- One iteration of the edit loop of `_apply_text_edits_to_file`: extract the
range (skip the edit if that fails), compute both offsets against the current
content, swap them if inverted, and splice.  Returns the new content and
whether the edit counted as applied. -/
def applyOneEdit (content : List Char) (edit : Json) : List Char × Bool :=
  match rangeStartEnd edit with
  | none => (content, false)
  | some (start_line, start_character, end_line, end_character) =>
    let start_position := text_position_from_lsp content start_line start_character
    let end_position := text_position_from_lsp content end_line end_character
    let p :=
      if end_position < start_position then (end_position, start_position)
      else (start_position, end_position)
    (spliceAt content p.1 p.2 (newTextOf edit), true)

/-- The edit loop of `_apply_text_edits_to_file` over already-sorted edits. -/
def applyEditsLoop (content : List Char) (applied_count : Nat) :
    List Json → List Char × Nat
  | [] => (content, applied_count)
  | e :: rest =>
    let r := applyOneEdit content e
    applyEditsLoop r.1 (if r.2 then applied_count + 1 else applied_count) rest

/-- The pure content transformation of `_apply_text_edits_to_file`: sort
descending, then splice each edit in turn.  Returns the final content and the
applied-edit count. -/
def apply_text_edits_to_file_content (content : List Char) (edits : List Json) :
    List Char × Nat :=
  applyEditsLoop content 0 (sort_text_edits_descending edits)

/-- `MainWindow._apply_text_edits_to_file(file_path, edits)` for one file:
`none` content models `not os.path.isfile` or an `OSError` on read (return 0);
an empty sorted list returns 0; a zero applied count returns 0; a failing
write (`writeOk = false`) logs and returns 0 with the file unchanged;
otherwise the new content is written and the applied count returned. -/
def apply_text_edits_to_file (content? : Option (List Char)) (writeOk : Bool)
    (edits : List Json) : Nat × Option (List Char) :=
  match content? with
  | none => (0, none)
  | some content =>
    let sorted_edits := sort_text_edits_descending edits
    if sorted_edits.isEmpty then (0, none)
    else
      let r := applyEditsLoop content 0 sorted_edits
      if r.2 = 0 then (0, none)
      else if writeOk then (r.2, some r.1)
      else (0, none)

/-- The per-file loop of `MainWindow._apply_workspace_edit`: files with empty
edit lists are skipped, each file is read from and written to the evolving
filesystem, and the changed-file / applied-edit counters grow only for files
whose application returned a positive count. -/
def applyWorkspaceLoop :
    List (String × List Json) → (String → Option (List Char)) → (String → Bool) →
    Nat → Nat → (Nat × Nat) × (String → Option (List Char))
  | [], fs, _, changed_files, changed_edits => ((changed_files, changed_edits), fs)
  | (file_path, edits) :: rest, fs, writeOk, changed_files, changed_edits =>
    if edits.isEmpty then applyWorkspaceLoop rest fs writeOk changed_files changed_edits
    else
      let r := apply_text_edits_to_file (fs file_path) (writeOk file_path) edits
      let fs' : String → Option (List Char) :=
        match r.2 with
        | some newContent => fun p => if p = file_path then some newContent else fs p
        | none => fs
      applyWorkspaceLoop rest fs' writeOk
        (if 0 < r.1 then changed_files + 1 else changed_files)
        (if 0 < r.1 then changed_edits + r.1 else changed_edits)

/-- `MainWindow._apply_workspace_edit(workspace_edit)` on the collected
per-file change map (`_collect_workspace_edit_changes` output: an
insertion-ordered dict, so the paths are distinct): an empty collection
returns `(0, 0)` immediately; otherwise the per-file loop runs.  Returns the
`(files_changed_count, edits_applied_count)` pair and the final filesystem. -/
def apply_workspace_edit (collected_changes : List (String × List Json))
    (fs : String → Option (List Char)) (writeOk : String → Bool) :
    (Nat × Nat) × (String → Option (List Char)) :=
  if collected_changes.isEmpty then ((0, 0), fs)
  else applyWorkspaceLoop collected_changes fs writeOk 0 0

/-! ## The client state machine

`LspClient` state and the operations the claims are about.  The `sent` field
is a ghost log of the messages written to the current connection's process
(cleared when a new process is spawned); everything else mirrors the
instance fields of `LspClient`.  `Env` packages the process/filesystem
facts (`os.path.abspath`, `os.path.isdir`, `os.getcwd`, `os.path.normcase`,
and whether any server candidate spawns successfully). -/

/-- Messages written to the server process, as far as the claims observe
them. -/
inductive SentMessage where
  | request (id : Nat) (method : String) (rootUri : Option String)
  | didOpen (uri : String) (version : Nat) (text : String) (languageId : String)
  | didChange (uri : String) (version : Nat) (text : String)
  | notification (method : String)
deriving DecidableEq

/-- The ambient OS facts the client consults. -/
structure Env where
  absPath : String → String
  isDir : String → Bool
  cwd : String
  normCase : String → String
  serverAvailable : Bool

/-- `path_to_uri(path) = Path(os.path.abspath(path)).as_uri()`, on the modeled
character set (no percent-encoding; see the header comment). -/
def path_to_uri (env : Env) (path : String) : String :=
  "file://" ++ env.absPath path

/-- `uri_to_path(uri)`: `none` for a non-`file` scheme, otherwise the path
(the `file://` prefix stripped; see the header comment on URI modeling). -/
def uri_to_path (uri : String) : Option String :=
  if ("file://".data).isPrefixOf uri.data then some (String.mk (uri.data.drop 7)) else none

/-- The instance state of `LspClient`. -/
structure ClientState where
  processRunning : Bool
  rootPath : Option String
  spawnWorkingDir : Option String
  isReady : Bool
  nextRequestId : Nat
  pendingRequests : List (Nat × Nat)
  openedDocumentVersions : List (String × Nat)
  pendingDocumentSync : List (String × String × String)
  sent : List SentMessage

/-- `LspClient._send_message`: writing silently does nothing when the process
is not running. -/
def send_message (st : ClientState) (m : SentMessage) : ClientState :=
  if st.processRunning then { st with sent := st.sent ++ [m] } else st

/-- `LspClient._send_request`: allocate the next id, record the callback
(modeled as an opaque token), and write the request. -/
def send_request (st : ClientState) (method : String) (rootUri : Option String)
    (callback : Nat) : ClientState :=
  let request_id := st.nextRequestId
  send_message
    { st with
      nextRequestId := request_id + 1
      pendingRequests := st.pendingRequests ++ [(request_id, callback)] }
    (.request request_id method rootUri)

/-- `LspClient._send_notification` (only the method name is observed for
generic notifications). -/
def send_notification (st : ClientState) (method : String) : ClientState :=
  send_message st (.notification method)

/-- `LspClient.open_or_change_document(file_path, text, language_id)`. -/
def open_or_change_document (env : Env) (st : ClientState) (file_path text : String)
    (language_id : String) : ClientState × Bool :=
  let absolute_path := env.absPath file_path
  let uri := path_to_uri env absolute_path
  if ¬st.isReady then
    ({ st with pendingDocumentSync := dictSet uri (text, language_id) st.pendingDocumentSync },
      false)
  else
    match dictGet uri st.openedDocumentVersions with
    | none =>
      (send_message
        { st with openedDocumentVersions := dictSet uri 1 st.openedDocumentVersions }
        (.didOpen uri 1 text language_id), true)
    | some version =>
      let next_version := version + 1
      (send_message
        { st with openedDocumentVersions := dictSet uri next_version st.openedDocumentVersions }
        (.didChange uri next_version text), true)

/-- The `for uri, (text, language_id) in pending_items` loop of
`LspClient._flush_pending_document_sync`. -/
def flushLoop (env : Env) (st : ClientState) :
    List (String × String × String) → ClientState
  | [] => st
  | (uri, text, language_id) :: rest =>
    match uri_to_path uri with
    | none => flushLoop env st rest
    | some path => flushLoop env (open_or_change_document env st path text language_id).1 rest

/-- `LspClient._flush_pending_document_sync`. -/
def flush_pending_document_sync (env : Env) (st : ClientState) : ClientState :=
  if ¬st.isReady ∨ st.pendingDocumentSync = [] then st
  else
    let pending_items := st.pendingDocumentSync
    flushLoop env { st with pendingDocumentSync := [] } pending_items

/-- `LspClient._send_initialize_request` (the claims observe the method name
and the `rootUri` parameter). -/
def send_initialize_request (env : Env) (st : ClientState) : ClientState :=
  match st.rootPath with
  | none => st
  | some root => send_request st "initialize" (some (path_to_uri env root)) 0

/-- `LspClient._start_process(root_path)`: when some candidate server spawns,
reset all per-connection state (including the request-id counter, back to 1),
record the working directory, and send `initialize`; otherwise report
"server not found" and leave the state unchanged. -/
def start_process (env : Env) (root_path : String) (st : ClientState) :
    ClientState × Bool :=
  if env.serverAvailable then
    let st1 : ClientState :=
      { processRunning := true
        rootPath := some root_path
        spawnWorkingDir := some root_path
        isReady := false
        nextRequestId := 1
        pendingRequests := []
        openedDocumentVersions := []
        pendingDocumentSync := []
        sent := [] }
    (send_initialize_request env st1, true)
  else (st, false)

/-- `LspClient.stop()`: clear all connection state unconditionally; if the
process was running, best-effort send `shutdown` (consuming one request id
from the still-uncleared counter) and `exit` to it before termination. -/
def stop (st : ClientState) : ClientState :=
  let cleared : ClientState :=
    { st with
      processRunning := false
      rootPath := none
      spawnWorkingDir := none
      isReady := false
      pendingRequests := []
      openedDocumentVersions := []
      pendingDocumentSync := [] }
  if st.processRunning then
    { cleared with
      nextRequestId := st.nextRequestId + 1
      sent := st.sent ++ [.request st.nextRequestId "shutdown" none, .notification "exit"] }
  else cleared

/-- `LspClient.ensure_started(root_path)`. -/
def ensure_started (env : Env) (st : ClientState) (root_path : String) :
    ClientState × Bool :=
  let normalized_root :=
    if env.isDir (env.absPath root_path) then env.absPath root_path else env.cwd
  if st.processRunning then
    match st.rootPath with
    | some rp =>
      if env.normCase rp = env.normCase normalized_root then (st, true)
      else start_process env normalized_root (stop st)
    | none => start_process env normalized_root (stop st)
  else start_process env normalized_root st

/-- The success path of `LspClient._on_initialize_response`: send the
`initialized` notification, mark the connection ready, and flush the pending
document syncs. -/
def on_initialize_success (env : Env) (st : ClientState) : ClientState :=
  let st1 := send_notification st "initialized"
  let st2 := { st1 with isReady := true }
  flush_pending_document_sync env st2

/-- The ids of all requests in a message log. -/
def requestIds (log : List SentMessage) : List Nat :=
  log.filterMap fun m =>
    match m with
    | .request id _ _ => some id
    | _ => none

/-- The document-sync notifications (`didOpen` / `didChange`) of a log. -/
def docSyncMessages (log : List SentMessage) : List SentMessage :=
  log.filter fun m =>
    match m with
    | .didOpen _ _ _ _ => true
    | .didChange _ _ _ => true
    | _ => false

/-- The URIs of the `didOpen` notifications of a log, in order. -/
def didOpenUris (log : List SentMessage) : List String :=
  log.filterMap fun m =>
    match m with
    | .didOpen uri _ _ _ => some uri
    | _ => none

/-- The versions carried by the sync notifications for one URI, in order. -/
def syncVersionsFor (uri : String) (log : List SentMessage) : List Nat :=
  log.filterMap fun m =>
    match m with
    | .didOpen u v _ _ => if u = uri then some v else none
    | .didChange u v _ => if u = uri then some v else none
    | _ => none

/-! ## The framing codec and read-side buffering

`LspClient._send_message` (encode side) and `LspClient._on_stdout_ready`
(decode side).  The decoder state is the pair
`(self._buffer, self._expected_content_length)`; `drain` is the
`while True` loop, with fuel making it structurally recursive (each loop
cycle either consumes at least the four header-terminator bytes or clears the
expected-length state, so `2*len + 2` cycles always suffice — proved below).
`DecodedItem.parseError` is the "LSP parse error" log branch: the offending
message is dropped and the stream continues. -/

/-- What one drain pass produces per framed message. -/
inductive DecodedItem where
  | message (payload : Json)
  | parseError

/-- `bytes.decode("ascii", errors="replace")` on the modeled alphabet. -/
def asciiDecodeReplace (l : List Char) : List Char :=
  l.map fun c => if c.toNat < 128 then c else '�'

/-- Does the buffer start with `\r\n\r\n`? -/
def startsWithCrlfCrlf (l : List Char) : Bool :=
  decide (l.take 4 = ['\r', '\n', '\r', '\n'])

/-- `buffer.find(b"\r\n\r\n")`: index of the first occurrence, if any. -/
def findCrlfCrlf : List Char → Option Nat
  | [] => none
  | c :: rest =>
    if startsWithCrlfCrlf (c :: rest) then some 0
    else (findCrlfCrlf rest).map (· + 1)

/-- One segment boundary of `raw_headers.split("\r\n")`. -/
def consHead (c : Char) : List (List Char) → List (List Char)
  | [] => [[c]]
  | x :: xs => (c :: x) :: xs

/-- `str.split("\r\n")`. -/
def splitCrlf : List Char → List (List Char)
  | [] => [[]]
  | c :: rest =>
    if c = '\r' then
      match rest with
      | [] => [['\r']]
      | c2 :: rest2 =>
        if c2 = '\n' then [] :: splitCrlf rest2 else consHead '\r' (splitCrlf (c2 :: rest2))
    else consHead c (splitCrlf rest)

/-- `line.lower().startswith("content-length:")`. -/
def isContentLengthLine (line : List Char) : Bool :=
  ("content-length:".data).isPrefixOf (pyLower line)

/-- `line.split(":", 1)[1]` (the callers only reach this when a colon is
present). -/
def afterFirstColon : List Char → List Char
  | [] => []
  | c :: rest => if c = ':' then rest else afterFirstColon rest

/-- The header loop of `_on_stdout_ready`: the first line matching
`content-length:` decides (then `break`); `int(...)` failure on that line
yields `None` (the message is skipped). -/
def headerContentLength : List (List Char) → Option Int
  | [] => none
  | line :: rest =>
    if isContentLengthLine line then pyIntOfString (afterFirstColon line)
    else headerContentLength rest

/-- Parse a raw header block (the bytes before `\r\n\r\n`): ASCII-decode with
replacement, split on `\r\n`, scan for the first `Content-Length` line. -/
def parseHeaderBlock (raw : List Char) : Option Int :=
  headerContentLength (splitCrlf (asciiDecodeReplace raw))

/-- The `while True` loop of `LspClient._on_stdout_ready`, as a function of
the `(buffer, expected_content_length)` state, with explicit fuel.  Returns
the final state together with the decoded items in order. -/
def drain : Nat → List Char → Option Nat → (List Char × Option Nat) × List DecodedItem
  | 0, buffer, expected => ((buffer, expected), [])
  | fuel + 1, buffer, none =>
    match findCrlfCrlf buffer with
    | none => ((buffer, none), [])
    | some header_end =>
      let buffer1 := buffer.drop (header_end + 4)
      match parseHeaderBlock (buffer.take header_end) with
      | none => drain fuel buffer1 none
      | some content_length => drain fuel buffer1 (some (max 0 content_length).toNat)
  | fuel + 1, buffer, some expected =>
    if buffer.length < expected then ((buffer, some expected), [])
    else
      let payload_bytes := buffer.take expected
      let buffer1 := buffer.drop expected
      let item :=
        match loads payload_bytes with
        | some message => DecodedItem.message message
        | none => DecodedItem.parseError
      let r := drain fuel buffer1 none
      (r.1, item :: r.2)

/-- Sufficient fuel for `drain` on a given state. -/
def fuelFor (buffer : List Char) (expected : Option Nat) : Nat :=
  2 * buffer.length + (match expected with | some _ => 2 | none => 1)

/-- The drain loop run to quiescence (fuel-independent, by `drain_fuel_eq`
below). -/
def runDrain (buffer : List Char) (expected : Option Nat) :
    (List Char × Option Nat) × List DecodedItem :=
  drain (fuelFor buffer expected) buffer expected

/-- One `readyReadStandardOutput` event: append the newly read chunk to the
buffer and drain. -/
def feed (st : List Char × Option Nat) (chunk : List Char) :
    (List Char × Option Nat) × List DecodedItem :=
  runDrain (st.1 ++ chunk) st.2

/-- A sequence of read events. -/
def feedMany (st : List Char × Option Nat) :
    List (List Char) → (List Char × Option Nat) × List DecodedItem
  | [] => (st, [])
  | chunk :: rest =>
    let r1 := feed st chunk
    let r2 := feedMany r1.1 rest
    (r2.1, r1.2 ++ r2.2)

/-- The initial decoder state: empty buffer, no expected length. -/
def initDecodeState : List Char × Option Nat := ([], none)

/-- `LspClient._send_message`'s wire encoding of one payload:
`Content-Length: <n>\r\n\r\n` followed by the compact JSON body. -/
def encode_message (payload : Json) : List Char :=
  let encoded := dumpsVal payload
  let header := ("Content-Length: ".data) ++ natRepr encoded.length ++ ['\r', '\n', '\r', '\n']
  header ++ encoded

/-! ## Iteration helpers and order-of-queueing observations used by the
theorem statements -/

/-- Is the head of the remainder not a decimal digit?  (The condition under
which a serialized number is parsed back greedily without absorbing following
input; every continuation produced by the compact serializer satisfies it.) -/
def headNoDigit (l : List Char) : Bool :=
  match l with
  | [] => true
  | c :: _ => !isDigitChar c

/-- The distinct elements of a list in order of *first* occurrence — the
iteration order of a Python dict whose keys were assigned in this sequence. -/
def firstOccurrenceOrder (uris : List String) : List String :=
  uris.foldl (fun acc u => if u ∈ acc then acc else acc ++ [u]) []

/-- The distinct elements of a list in order of *last* occurrence — the order
in which the documents were last modified, as the spec describes the flush
order. -/
def lastModifiedOrder (uris : List String) : List String :=
  (firstOccurrenceOrder uris.reverse).reverse

/-- A sequence of `open_or_change_document` calls, each `(path, text,
language_id)`. -/
def openChangeCalls (env : Env) (st : ClientState) :
    List (String × String × String) → ClientState
  | [] => st
  | (path, text, language_id) :: rest =>
    openChangeCalls env (open_or_change_document env st path text language_id).1 rest

/-- The URIs a sequence of `open_or_change_document` calls addresses. -/
def queuedUris (env : Env) (calls : List (String × String × String)) : List String :=
  calls.map fun c => path_to_uri env (env.absPath c.1)

/-- The `(text, languageId)` of the *last* queueing call for a URI, if any:
what "last write wins" leaves in the pending-sync dict. -/
def lastQueuedValue (env : Env) (calls : List (String × String × String)) (u : String) :
    Option (String × String) :=
  calls.foldl
    (fun acc c => if path_to_uri env (env.absPath c.1) = u then some (c.2.1, c.2.2) else acc)
    none

/-- A sequence of feature requests, each `(method, callback token)`. -/
def sendManyRequests (st : ClientState) : List (String × Nat) → ClientState
  | [] => st
  | (method, callback) :: rest => sendManyRequests (send_request st method none callback) rest

/-- A text edit shaped as the LSP server sends it, for concrete instances. -/
def sampleEdit (sl sc el ec : Int) (txt : List Char) : Json :=
  Json.obj
    [("range".data, Json.obj
        [("start".data,
          Json.obj [("line".data, Json.num sl), ("character".data, Json.num sc)]),
        ("end".data,
          Json.obj [("line".data, Json.num el), ("character".data, Json.num ec)])]),
      ("newText".data, Json.str txt)]

/-- An `Env` whose paths are already absolute and whose directories all
exist, for concrete instances. -/
def idEnv : Env :=
  { absPath := fun p => p, isDir := fun _ => true, cwd := "", normCase := fun p => p,
    serverAvailable := true }

/-- The client state right after a fresh `_start_process` (initialize sent,
response not yet received), the ghost log cleared for readability. -/
def freshNotReadyState : ClientState :=
  { processRunning := true, rootPath := some "r", spawnWorkingDir := some "r",
    isReady := false, nextRequestId := 2, pendingRequests := [(1, 0)],
    openedDocumentVersions := [], pendingDocumentSync := [], sent := [] }

/-!
# Theorems

First the infrastructure lemmas (decimal representations, Python `int()`,
`takeWhile` / `dropWhile` bookkeeping), then the per-component lemmas, then
one theorem per claim (with witnesses / counterexamples).
-/

/-! ## Decimal digits and `int()` -/

theorem char_ne_of_toNat_ne {c d : Char} (h : c.toNat ≠ d.toNat) : c ≠ d :=
  fun he => h (he ▸ rfl)

theorem natDigitsAux_foldr (fuel : Nat) : ∀ n : Nat, n ≤ fuel →
    (natDigitsAux fuel n).foldr (fun d a => a * 10 + d) 0 = n := by
  induction fuel with
  | zero => intro n h; interval_cases n; rfl
  | succ fuel ih =>
    intro n h
    by_cases h0 : n = 0
    · subst h0; simp [natDigitsAux]
    · have hdiv : n / 10 ≤ fuel := by omega
      simp only [natDigitsAux, if_neg h0, List.foldr_cons]
      rw [ih _ hdiv]
      omega

theorem natDigitsAux_lt_ten (fuel : Nat) : ∀ n d : Nat, d ∈ natDigitsAux fuel n → d < 10 := by
  induction fuel with
  | zero => intro n d h; simp [natDigitsAux] at h
  | succ fuel ih =>
    intro n d h
    by_cases h0 : n = 0
    · subst h0; simp [natDigitsAux] at h
    · simp only [natDigitsAux, if_neg h0, List.mem_cons] at h
      rcases h with h | h
      · omega
      · exact ih _ _ h

theorem digitVal_digitChar {d : Nat} (h : d < 10) : digitVal (digitChar d) = d := by
  interval_cases d <;> rfl

theorem isDigitChar_digitChar {d : Nat} (h : d < 10) : isDigitChar (digitChar d) = true := by
  interval_cases d <;> rfl

theorem natRepr_all_digits (n : Nat) : ∀ c ∈ natRepr n, isDigitChar c = true := by
  intro c hc
  unfold natRepr at hc
  by_cases h0 : n = 0
  · rw [if_pos h0] at hc
    simp only [List.mem_singleton] at hc
    subst hc; rfl
  · rw [if_neg h0] at hc
    simp only [List.mem_map, List.mem_reverse] at hc
    obtain ⟨d, hd, rfl⟩ := hc
    exact isDigitChar_digitChar (natDigitsAux_lt_ten _ _ _ hd)

theorem natRepr_ne_nil (n : Nat) : natRepr n ≠ [] := by
  unfold natRepr
  by_cases h0 : n = 0
  · rw [if_pos h0]; simp
  · rw [if_neg h0]
    unfold natDigitsLE natDigitsAux
    rw [if_neg h0]
    simp

theorem foldl_digitVal_map {l : List Nat} (h : ∀ d ∈ l, d < 10) : ∀ init : Nat,
    (l.map digitChar).foldl (fun a c => a * 10 + digitVal c) init =
      l.foldl (fun a d => a * 10 + d) init := by
  induction l with
  | nil => intro init; rfl
  | cons d ds ih =>
    intro init
    simp only [List.map_cons, List.foldl_cons]
    rw [digitVal_digitChar (h d (List.mem_cons_self d ds))]
    exact ih (fun x hx => h x (List.mem_cons_of_mem d hx)) _

theorem digitsVal_natRepr (n : Nat) : digitsVal (natRepr n) = n := by
  by_cases h0 : n = 0
  · subst h0; rfl
  · unfold natRepr digitsVal natDigitsLE
    rw [if_neg h0,
      foldl_digitVal_map (fun d hd => natDigitsAux_lt_ten _ _ _ (List.mem_reverse.mp hd)) 0,
      List.foldl_reverse]
    exact natDigitsAux_foldr _ _ (Nat.le_succ n)

theorem digit_toNat_bounds {c : Char} (h : isDigitChar c = true) :
    48 ≤ c.toNat ∧ c.toNat ≤ 57 := by
  unfold isDigitChar at h
  simp only [Bool.and_eq_true, decide_eq_true_eq] at h
  exact h

theorem char_ne_of_digit_out {c d : Char} (h : isDigitChar c = true)
    (hd : d.toNat < 48 ∨ 57 < d.toNat) : c ≠ d := by
  have hb := digit_toNat_bounds h
  exact char_ne_of_toNat_ne (by omega)

theorem isPySpace_eq_false_of_digit {c : Char} (h : isDigitChar c = true) :
    isPySpace c = false := by
  unfold isPySpace
  simp only [Bool.or_eq_false_iff, decide_eq_false_iff_not]
  refine ⟨⟨⟨⟨⟨?_, ?_⟩, ?_⟩, ?_⟩, ?_⟩, ?_⟩ <;>
    exact char_ne_of_digit_out h (by decide)

theorem dropWhile_eq_self_of_all {p : Char → Bool} :
    ∀ l : List Char, (∀ c ∈ l, p c = false) → l.dropWhile p = l := by
  intro l h
  cases l with
  | nil => rfl
  | cons a l => simp [List.dropWhile_cons, h a (List.mem_cons_self a l)]

theorem pyStrip_eq_self {l : List Char} (h : ∀ c ∈ l, isPySpace c = false) :
    pyStrip l = l := by
  unfold pyStrip
  rw [dropWhile_eq_self_of_all l h,
    dropWhile_eq_self_of_all l.reverse (fun c hc => h c (List.mem_reverse.mp hc)),
    List.reverse_reverse]

theorem digit_ne_minus {c : Char} (h : isDigitChar c = true) : c ≠ '-' :=
  char_ne_of_digit_out h (by decide)

theorem digit_ne_plus {c : Char} (h : isDigitChar c = true) : c ≠ '+' :=
  char_ne_of_digit_out h (by decide)

theorem pyIntOfString_natRepr (n : Nat) : pyIntOfString (natRepr n) = some (n : Int) := by
  have hd := natRepr_all_digits n
  unfold pyIntOfString
  rw [pyStrip_eq_self (fun c hc => isPySpace_eq_false_of_digit (hd c hc))]
  cases hrepr : natRepr n with
  | nil => exact absurd hrepr (natRepr_ne_nil n)
  | cons c cs =>
    have hc : isDigitChar c = true := hd c (by rw [hrepr]; exact List.mem_cons_self c cs)
    have hall : ∀ x ∈ c :: cs, isDigitChar x = true := by
      intro x hx; exact hd x (by rw [hrepr]; exact hx)
    simp only [if_neg (digit_ne_minus hc), if_neg (digit_ne_plus hc)]
    rw [if_pos ⟨List.cons_ne_nil c cs, List.all_eq_true.mpr hall⟩]
    have : digitsVal (c :: cs) = n := by rw [← hrepr]; exact digitsVal_natRepr n
    simp [this]

theorem pyIntOfString_negRepr (m : Nat) :
    pyIntOfString ('-' :: natRepr m) = some (-(m : Int)) := by
  have hd := natRepr_all_digits m
  have hnospace : ∀ c ∈ '-' :: natRepr m, isPySpace c = false := by
    intro c hc
    rcases List.mem_cons.mp hc with rfl | hc
    · rfl
    · exact isPySpace_eq_false_of_digit (hd c hc)
  unfold pyIntOfString
  rw [pyStrip_eq_self hnospace]
  cases hrepr : natRepr m with
  | nil => exact absurd hrepr (natRepr_ne_nil m)
  | cons c cs =>
    have hall : ∀ x ∈ c :: cs, isDigitChar x = true := by
      intro x hx; exact hd x (by rw [hrepr]; exact hx)
    simp only [if_pos rfl]
    rw [if_pos ⟨List.cons_ne_nil c cs, List.all_eq_true.mpr hall⟩]
    have : digitsVal (c :: cs) = m := by rw [← hrepr]; exact digitsVal_natRepr m
    simp [this]

theorem intRepr_nonneg (n : Int) (h : 0 ≤ n) : intRepr n = natRepr n.toNat := by
  unfold intRepr
  rw [if_neg (by omega)]

theorem pyIntOfString_intRepr (n : Int) : pyIntOfString (intRepr n) = some n := by
  unfold intRepr
  by_cases hneg : n < 0
  · rw [if_pos hneg, pyIntOfString_negRepr]
    congr 1
    omega
  · rw [if_neg hneg, pyIntOfString_natRepr]
    congr 1
    omega

/-! ## List bookkeeping helpers -/

theorem takeWhile_append_of_all {p : Char → Bool} :
    ∀ (a b : List Char), (∀ c ∈ a, p c = true) → (a ++ b).takeWhile p = a ++ b.takeWhile p := by
  intro a b h
  induction a with
  | nil => rfl
  | cons x xs ih =>
    simp only [List.cons_append, List.takeWhile_cons, h x (List.mem_cons_self x xs), if_true]
    rw [ih (fun c hc => h c (List.mem_cons_of_mem x hc))]

theorem dropWhile_append_of_all {p : Char → Bool} :
    ∀ (a b : List Char), (∀ c ∈ a, p c = true) → (a ++ b).dropWhile p = b.dropWhile p := by
  intro a b h
  induction a with
  | nil => rfl
  | cons x xs ih =>
    simp only [List.cons_append, List.dropWhile_cons, h x (List.mem_cons_self x xs), if_true]
    exact ih (fun c hc => h c (List.mem_cons_of_mem x hc))

theorem dropWhile_head_false {p : Char → Bool} :
    ∀ (l : List Char) (b : Char) (r : List Char), l.dropWhile p = b :: r → p b = false := by
  intro l
  induction l with
  | nil => intro b r h; simp at h
  | cons a as ih =>
    intro b r h
    rw [List.dropWhile_cons] at h
    by_cases hp : p a
    · rw [if_pos hp] at h; exact ih b r h
    · rw [if_neg hp] at h
      cases h
      simpa using hp

theorem sum_take_le (l : List Nat) (n : Nat) : (l.take n).sum ≤ l.sum := by
  induction l generalizing n with
  | nil => simp
  | cons a as ih =>
    cases n with
    | zero => simp
    | succ k =>
      simp only [List.take_succ_cons, List.sum_cons]
      exact Nat.add_le_add_left (ih k) a

theorem take_succ_getD (l : List (List Char)) (n : Nat) (h : n < l.length) :
    l.take (n + 1) = l.take n ++ [l.getD n []] := by
  induction l generalizing n with
  | nil => simp at h
  | cons a as ih =>
    cases n with
    | zero => simp
    | succ k =>
      simp only [List.take_succ_cons, List.getD_cons_succ]
      rw [ih k (by simpa using h)]
      simp

theorem take_eq_nil_of_eq {l : List Char} {n : Nat} (h : l.take n = []) (hn : 0 < n) :
    l = [] := by
  cases l with
  | nil => rfl
  | cons a as =>
    cases n with
    | zero => omega
    | succ k => simp at h

theorem take_succ_cons_inj {a b : Char} {xs ys : List Char} {m : Nat}
    (h : (a :: xs).take (m + 1) = (b :: ys).take (m + 1)) : a = b ∧ xs.take m = ys.take m := by
  simpa [List.take_succ_cons] using h

/-! ## `takeLine` and `splitlinesKeepends` structure -/

theorem isBreak_of_crlf {b : Char} (h : isBreakChar b = true) : b = '\n' ∨ b = '\r' := by
  unfold isBreakChar at h
  rcases Bool.or_eq_true_iff.mp h with h | h
  · exact Or.inl (by simpa using h)
  · exact Or.inr (by simpa using h)

theorem crlfTest_eq_false_of_not_break {c : Char} (h : isBreakChar c = false) :
    ((c = '\r' : Bool) || (c = '\n' : Bool)) = false := by
  unfold isBreakChar at h
  simp only [Bool.or_eq_false_iff, decide_eq_false_iff_not] at h ⊢
  exact ⟨h.2, h.1⟩

theorem crlfTest_eq_true_of_break {c : Char} (h : isBreakChar c = true) :
    ((c = '\r' : Bool) || (c = '\n' : Bool)) = true := by
  rcases isBreak_of_crlf h with rfl | rfl <;> decide

theorem takeLine_nil : takeLine [] = ([], []) := rfl

theorem takeLine_cons_not_break {c : Char} (rest : List Char) (h : isBreakChar c = false) :
    takeLine (c :: rest) = (c :: (takeLine rest).1, (takeLine rest).2) := by
  unfold takeLine
  simp only [List.takeWhile_cons, List.dropWhile_cons, h, Bool.not_false, if_true]
  cases hdw : rest.dropWhile (fun c => !isBreakChar c) with
  | nil => simp
  | cons b r =>
    by_cases hb : b = '\r'
    · subst hb
      cases r with
      | nil => simp
      | cons c2 r2 =>
        by_cases hc2 : c2 = '\n' <;> simp [hc2]
    · simp [hb]

theorem takeLine_cons_lf (rest : List Char) : takeLine ('\n' :: rest) = (['\n'], rest) := by
  unfold takeLine
  simp only [List.takeWhile_cons, List.dropWhile_cons]
  norm_num [isBreakChar]
  exact fun h => absurd h (by decide)

theorem takeLine_cons_cr_nil : takeLine ['\r'] = (['\r'], []) := by
  unfold takeLine
  simp only [List.takeWhile_cons, List.dropWhile_cons]
  norm_num [isBreakChar]

theorem takeLine_cons_crlf (rest : List Char) :
    takeLine ('\r' :: '\n' :: rest) = (['\r', '\n'], rest) := by
  unfold takeLine
  simp only [List.takeWhile_cons, List.dropWhile_cons]
  norm_num [isBreakChar]

theorem takeLine_cons_cr_other {c2 : Char} (rest : List Char) (h : c2 ≠ '\n') :
    takeLine ('\r' :: c2 :: rest) = (['\r'], c2 :: rest) := by
  unfold takeLine
  simp only [List.takeWhile_cons, List.dropWhile_cons]
  norm_num [isBreakChar, h]

theorem splitlines_cons_lf (rest : List Char) :
    splitlinesKeepends ('\n' :: rest) = ['\n'] :: splitlinesKeepends rest := by
  rw [splitlinesKeepends.eq_def]
  simp

theorem splitlines_cons_cr_nil : splitlinesKeepends ['\r'] = [['\r']] := by
  rw [splitlinesKeepends]
  simp

theorem splitlines_cons_crlf (rest : List Char) :
    splitlinesKeepends ('\r' :: '\n' :: rest) = ['\r', '\n'] :: splitlinesKeepends rest := by
  rw [splitlinesKeepends]
  simp

theorem splitlines_cons_cr_other {c2 : Char} (rest : List Char) (h : c2 ≠ '\n') :
    splitlinesKeepends ('\r' :: c2 :: rest) = ['\r'] :: splitlinesKeepends (c2 :: rest) := by
  rw [splitlinesKeepends.eq_def]
  simp [h]

theorem splitlines_cons_not_break {c : Char} (rest : List Char) (hn : c ≠ '\n') (hr : c ≠ '\r') :
    splitlinesKeepends (c :: rest) =
      match splitlinesKeepends rest with
      | [] => [[c]]
      | line :: lines => (c :: line) :: lines := by
  rw [splitlinesKeepends.eq_def]
  simp [hn, hr]

theorem splitlines_eq_nil_iff (l : List Char) : splitlinesKeepends l = [] ↔ l = [] := by
  constructor
  · intro h
    cases l with
    | nil => rfl
    | cons c rest =>
      exfalso
      by_cases hn : c = '\n'
      · subst hn; rw [splitlines_cons_lf] at h; simp at h
      · by_cases hr : c = '\r'
        · subst hr
          cases rest with
          | nil => rw [splitlines_cons_cr_nil] at h; simp at h
          | cons c2 rest2 =>
            by_cases hc2 : c2 = '\n'
            · subst hc2; rw [splitlines_cons_crlf] at h; simp at h
            · rw [splitlines_cons_cr_other rest2 hc2] at h; simp at h
        · rw [splitlines_cons_not_break rest hn hr] at h
          cases hs : splitlinesKeepends rest with
          | nil => rw [hs] at h; simp at h
          | cons line lines => rw [hs] at h; simp at h
  · intro h; subst h; rfl

theorem takeLine_splits (l : List Char) : l = (takeLine l).1 ++ (takeLine l).2 := by
  induction l with
  | nil => rfl
  | cons c rest ih =>
    by_cases hn : c = '\n'
    · subst hn; rw [takeLine_cons_lf]; rfl
    · by_cases hr : c = '\r'
      · subst hr
        cases rest with
        | nil => rw [takeLine_cons_cr_nil]; rfl
        | cons c2 rest2 =>
          by_cases hc2 : c2 = '\n'
          · subst hc2; rw [takeLine_cons_crlf]; rfl
          · rw [takeLine_cons_cr_other rest2 hc2]; rfl
      · have hbreak : isBreakChar c = false := by unfold isBreakChar; simp [hn, hr]
        rw [takeLine_cons_not_break rest hbreak]
        simp only [List.cons_append]
        exact congrArg (c :: ·) ih

theorem takeLine_fst_ne_nil {l : List Char} (h : l ≠ []) : (takeLine l).1 ≠ [] := by
  cases l with
  | nil => exact absurd rfl h
  | cons c rest =>
    by_cases hn : c = '\n'
    · subst hn; rw [takeLine_cons_lf]; simp
    · by_cases hr : c = '\r'
      · subst hr
        cases rest with
        | nil => rw [takeLine_cons_cr_nil]; simp
        | cons c2 rest2 =>
          by_cases hc2 : c2 = '\n'
          · subst hc2; rw [takeLine_cons_crlf]; simp
          · rw [takeLine_cons_cr_other rest2 hc2]; simp
      · have hbreak : isBreakChar c = false := by unfold isBreakChar; simp [hn, hr]
        rw [takeLine_cons_not_break rest hbreak]; simp

theorem takeLine_snd_length_lt {l : List Char} (h : l ≠ []) :
    (takeLine l).2.length < l.length := by
  have hs := takeLine_splits l
  have hne := takeLine_fst_ne_nil h
  have hlen : l.length = (takeLine l).1.length + (takeLine l).2.length := by
    conv_lhs => rw [hs]
    simp
  have hpos : 0 < (takeLine l).1.length := List.length_pos.mpr hne
  omega

theorem splitlines_cons_eq {l : List Char} (h : l ≠ []) :
    splitlinesKeepends l = (takeLine l).1 :: splitlinesKeepends (takeLine l).2 := by
  induction l with
  | nil => exact absurd rfl h
  | cons c rest ih =>
    by_cases hn : c = '\n'
    · subst hn; rw [splitlines_cons_lf, takeLine_cons_lf]
    · by_cases hr : c = '\r'
      · subst hr
        cases rest with
        | nil => rw [splitlines_cons_cr_nil, takeLine_cons_cr_nil]; rfl
        | cons c2 rest2 =>
          by_cases hc2 : c2 = '\n'
          · subst hc2; rw [splitlines_cons_crlf, takeLine_cons_crlf]
          · rw [splitlines_cons_cr_other rest2 hc2, takeLine_cons_cr_other rest2 hc2]
      · have hbreak : isBreakChar c = false := by unfold isBreakChar; simp [hn, hr]
        rw [splitlines_cons_not_break rest hn hr, takeLine_cons_not_break rest hbreak]
        by_cases hrest : rest = []
        · subst hrest
          rw [takeLine_nil]
          rfl
        · rw [ih hrest]

theorem splitlines_length_sum :
    ∀ (n : Nat) (l : List Char), l.length ≤ n →
      ((splitlinesKeepends l).map List.length).sum = l.length := by
  intro n
  induction n with
  | zero =>
    intro l h
    have : l = [] := by
      cases l
      · rfl
      · simp at h
    subst this
    rfl
  | succ n ih =>
    intro l h
    by_cases hl : l = []
    · subst hl; rfl
    · rw [splitlines_cons_eq hl]
      have hlt := takeLine_snd_length_lt hl
      have hrec := ih (takeLine l).2 (by omega)
      simp only [List.map_cons, List.sum_cons, hrec]
      conv_rhs => rw [takeLine_splits l]
      simp

theorem rstripCrLf_length_le (l : List Char) : (rstripCrLf l).length ≤ l.length := by
  unfold rstripCrLf
  calc (l.reverse.dropWhile fun c => c = '\r' || c = '\n').reverse.length
      = (l.reverse.dropWhile fun c => c = '\r' || c = '\n').length := by simp
    _ ≤ l.reverse.length := (List.dropWhile_sublist _).length_le
    _ = l.length := by simp

theorem dropWhile_append_singleton {p : Char → Bool} {c : Char} (hc : p c = false) :
    ∀ (a : List Char), (a ++ [c]).dropWhile p = a.dropWhile p ++ [c] := by
  intro a
  induction a with
  | nil => simp [List.dropWhile_cons, hc]
  | cons x xs ih =>
    simp only [List.cons_append, List.dropWhile_cons]
    by_cases hx : p x
    · simp only [hx, if_true]
      exact ih
    · simp [hx]

theorem rstrip_cons_not_crlf {c : Char} {l : List Char}
    (hc : ((c = '\r' : Bool) || (c = '\n' : Bool)) = false) :
    rstripCrLf (c :: l) = c :: rstripCrLf l := by
  unfold rstripCrLf
  rw [List.reverse_cons, dropWhile_append_singleton hc]
  simp

theorem takeLine_fst_rstrip (l : List Char) :
    rstripCrLf (takeLine l).1 = l.takeWhile (fun c => !isBreakChar c) := by
  induction l with
  | nil => rfl
  | cons c rest ih =>
    by_cases hn : c = '\n'
    · subst hn
      rw [takeLine_cons_lf]
      simp only [List.takeWhile_cons]
      norm_num [isBreakChar]
      rfl
    · by_cases hr : c = '\r'
      · subst hr
        have hwhile : ('\r' :: rest).takeWhile (fun c => !isBreakChar c) = [] := by
          simp only [List.takeWhile_cons]
          norm_num [isBreakChar]
        cases rest with
        | nil => rw [takeLine_cons_cr_nil, hwhile]; rfl
        | cons c2 rest2 =>
          by_cases hc2 : c2 = '\n'
          · subst hc2; rw [takeLine_cons_crlf, hwhile]; rfl
          · rw [takeLine_cons_cr_other rest2 hc2, hwhile]; rfl
      · have hbreak : isBreakChar c = false := by unfold isBreakChar; simp [hn, hr]
        rw [takeLine_cons_not_break rest hbreak]
        rw [rstrip_cons_not_crlf (crlfTest_eq_false_of_not_break hbreak)]
        simp only [List.takeWhile_cons, hbreak, Bool.not_false, if_true]
        rw [ih]

/-! ## Shared-prefix stability of the position mapper

The key safety fact behind descending-order edit application: splicing at
offsets `[s, e)` leaves the first `s` characters untouched, and any position
whose computed offset lies strictly before `s` keeps the same offset in the
spliced content.  The lemmas below prove this for arbitrary texts sharing a
prefix. -/

theorem takeWhile_eq_of_shared {p : Char → Bool} :
    ∀ (m : Nat) (x y : List Char), x.take m = y.take m → (x.takeWhile p).length < m →
      y.takeWhile p = x.takeWhile p := by
  intro m
  induction m with
  | zero => intro x y _ h; omega
  | succ m ih =>
    intro x y hshare hlen
    cases x with
    | nil =>
      have hy : y = [] := by
        have : y.take (m + 1) = [] := by rw [← hshare]; rfl
        exact take_eq_nil_of_eq this (by omega)
      subst hy; rfl
    | cons a xs =>
      cases y with
      | nil =>
        exfalso
        have : (a :: xs).take (m + 1) = [] := by rw [hshare]; rfl
        simp [List.take_succ_cons] at this
      | cons b ys =>
        obtain ⟨rfl, hshare'⟩ := take_succ_cons_inj hshare
        by_cases hp : p a
        · rw [List.takeWhile_cons, if_pos hp] at hlen ⊢
          rw [List.takeWhile_cons, if_pos hp]
          simp only [List.length_cons] at hlen
          rw [ih xs ys hshare' (by omega)]
        · rw [List.takeWhile_cons, if_neg hp, List.takeWhile_cons, if_neg hp]

theorem takeWhile_len_ge_of_shared {p : Char → Bool} :
    ∀ (m : Nat) (x y : List Char), x.take m = y.take m → m ≤ (x.takeWhile p).length →
      m ≤ (y.takeWhile p).length := by
  intro m
  induction m with
  | zero => intro x y _ _; omega
  | succ m ih =>
    intro x y hshare hlen
    cases x with
    | nil => simp at hlen
    | cons a xs =>
      by_cases hp : p a
      · cases y with
        | nil =>
          exfalso
          have : (a :: xs).take (m + 1) = [] := by rw [hshare]; rfl
          simp [List.take_succ_cons] at this
        | cons b ys =>
          obtain ⟨rfl, hshare'⟩ := take_succ_cons_inj hshare
          rw [List.takeWhile_cons, if_pos hp] at hlen ⊢
          simp only [List.length_cons] at hlen ⊢
          have := ih xs ys hshare' (by omega)
          omega
      · rw [List.takeWhile_cons, if_neg hp] at hlen
        simp at hlen

theorem takeLine_eq_of_shared :
    ∀ (m : Nat) (x y : List Char), x.take m = y.take m → m ≤ x.length → m ≤ y.length →
      (takeLine x).1.length < m →
      takeLine y = ((takeLine x).1, y.drop (takeLine x).1.length) := by
  intro m
  induction m with
  | zero => intro x y _ _ _ h; omega
  | succ m ih =>
    intro x y hshare hmx hmy hlen
    cases x with
    | nil => simp at hmx
    | cons a xs =>
      cases y with
      | nil => simp at hmy
      | cons b ys =>
        obtain ⟨rfl, hshare'⟩ := take_succ_cons_inj hshare
        by_cases hn : a = '\n'
        · subst hn
          rw [takeLine_cons_lf] at hlen ⊢
          rw [takeLine_cons_lf]
          rfl
        · by_cases hr : a = '\r'
          · subst hr
            cases xs with
            | nil =>
              rw [takeLine_cons_cr_nil] at hlen
              simp at hlen hmx
              omega
            | cons c2 xs2 =>
              have hm1 : 1 ≤ m := by
                by_contra hcon
                have hm0 : m = 0 := by omega
                subst hm0
                by_cases hc2 : c2 = '\n'
                · subst hc2; rw [takeLine_cons_crlf] at hlen; simp at hlen
                · rw [takeLine_cons_cr_other xs2 hc2] at hlen; simp at hlen
              cases ys with
              | nil =>
                exfalso
                have : (c2 :: xs2).take m = [] := by rw [hshare']; simp
                exact absurd (take_eq_nil_of_eq this (by omega)) (by simp)
              | cons c2' ys2 =>
                obtain ⟨k, rfl⟩ : ∃ k, m = k + 1 := ⟨m - 1, by omega⟩
                obtain ⟨rfl, hshare2⟩ := take_succ_cons_inj hshare'
                by_cases hc2 : c2 = '\n'
                · subst hc2
                  rw [takeLine_cons_crlf] at hlen ⊢
                  rw [takeLine_cons_crlf]
                  rfl
                · rw [takeLine_cons_cr_other xs2 hc2] at hlen ⊢
                  rw [takeLine_cons_cr_other ys2 hc2]
                  rfl
          · have hbreak : isBreakChar a = false := by unfold isBreakChar; simp [hn, hr]
            rw [takeLine_cons_not_break xs hbreak] at hlen ⊢
            rw [takeLine_cons_not_break ys hbreak]
            simp only [List.length_cons] at hlen
            simp only [List.length_cons, List.drop_succ_cons]
            have := ih xs ys hshare' (by simpa using Nat.le_of_succ_le_succ hmx)
              (by simpa using Nat.le_of_succ_le_succ hmy) (by omega)
            rw [this]

theorem textPosCore_nil (nl nc : Nat) : textPosCore [] nl nc = 0 := rfl

theorem textPosCore_zero {content : List Char} (h : content ≠ []) (nc : Nat) :
    textPosCore content 0 nc =
      min nc (content.takeWhile (fun c => !isBreakChar c)).length := by
  unfold textPosCore
  rw [splitlines_cons_eq h]
  rw [if_neg (by simp), if_neg (by simp)]
  simp only [List.take_zero, List.map_nil, List.sum_nil, List.getD_cons_zero, Nat.zero_add]
  rw [takeLine_fst_rstrip]

theorem textPosCore_rec {content : List Char} (h : content ≠ []) (k nc : Nat) :
    textPosCore content (k + 1) nc =
      (takeLine content).1.length + textPosCore (takeLine content).2 k nc := by
  unfold textPosCore
  rw [splitlines_cons_eq h]
  rw [if_neg (by simp)]
  by_cases hlen : (splitlinesKeepends (takeLine content).2).length ≤ k
  · rw [if_pos (by simp; omega)]
    by_cases hx1 : splitlinesKeepends (takeLine content).2 = []
    · rw [if_pos hx1]
      have hx1nil : (takeLine content).2 = [] := (splitlines_eq_nil_iff _).mp hx1
      conv_lhs => rw [takeLine_splits content]
      rw [hx1nil]
      simp
    · rw [if_neg hx1, if_pos hlen]
      conv_lhs => rw [takeLine_splits content]
      simp
  · have hk : k < (splitlinesKeepends (takeLine content).2).length := by omega
    have hx1 : splitlinesKeepends (takeLine content).2 ≠ [] := by
      intro hh; rw [hh] at hk; simp at hk
    rw [if_neg (by simp; omega), if_neg hx1, if_neg (by omega)]
    simp only [List.take_succ_cons, List.map_cons, List.sum_cons, List.getD_cons_succ]
    omega

theorem textPosCore_le_length (content : List Char) (nl nc : Nat) :
    textPosCore content nl nc ≤ content.length := by
  unfold textPosCore
  by_cases h1 : splitlinesKeepends content = []
  · rw [if_pos h1]; omega
  · rw [if_neg h1]
    by_cases h2 : (splitlinesKeepends content).length ≤ nl
    · rw [if_pos h2]
    · rw [if_neg h2]
      push_neg at h2
      have hsum := splitlines_length_sum content.length content (le_refl _)
      have hr := rstripCrLf_length_le ((splitlinesKeepends content).getD nl [])
      have hmin : min nc (rstripCrLf ((splitlinesKeepends content).getD nl [])).length ≤
          (rstripCrLf ((splitlinesKeepends content).getD nl [])).length := Nat.min_le_right ..
      have htake : (((splitlinesKeepends content).take (nl + 1)).map List.length).sum
          = (((splitlinesKeepends content).take nl).map List.length).sum
            + ((splitlinesKeepends content).getD nl []).length := by
        rw [take_succ_getD _ _ h2]
        simp
      have hle : (((splitlinesKeepends content).take (nl + 1)).map List.length).sum
          ≤ ((splitlinesKeepends content).map List.length).sum := by
        rw [List.map_take]
        exact sum_take_le ..
      omega

theorem textPosCore_stable_aux :
    ∀ (n : Nat) (x : List Char), x.length ≤ n → ∀ (y : List Char) (m nl nc : Nat),
      x.take m = y.take m → m ≤ x.length → m ≤ y.length → textPosCore x nl nc < m →
      textPosCore y nl nc = textPosCore x nl nc := by
  intro n
  induction n with
  | zero =>
    intro x hx y m nl nc hshare hmx hmy hpos
    omega
  | succ n ih =>
    intro x hx y m nl nc hshare hmx hmy hpos
    have hxne : x ≠ [] := by
      intro hh; subst hh
      simp at hmx
      omega
    have hyne : y ≠ [] := by
      intro hh; subst hh
      simp at hmy
      omega
    cases nl with
    | zero =>
      rw [textPosCore_zero hxne nc] at hpos
      rw [textPosCore_zero hyne nc, textPosCore_zero hxne nc]
      by_cases hcase : (x.takeWhile (fun c => !isBreakChar c)).length ≤ nc
      · rw [Nat.min_eq_right hcase] at hpos
        rw [takeWhile_eq_of_shared m x y hshare (by omega)]
      · push_neg at hcase
        have hposn : nc < m := by
          rw [Nat.min_eq_left (by omega)] at hpos
          exact hpos
        have hshare' : x.take (nc + 1) = y.take (nc + 1) := by
          calc x.take (nc + 1) = (x.take m).take (nc + 1) := by
                rw [List.take_take]; congr 1; omega
            _ = (y.take m).take (nc + 1) := by rw [hshare]
            _ = y.take (nc + 1) := by rw [List.take_take]; congr 1; omega
        have hcy := takeWhile_len_ge_of_shared (p := fun c => !isBreakChar c)
          (nc + 1) x y hshare' (by omega)
        rw [Nat.min_eq_left (by omega), Nat.min_eq_left (by omega)]
    | succ k =>
      rw [textPosCore_rec hxne k nc] at hpos
      rw [textPosCore_rec hyne k nc, textPosCore_rec hxne k nc]
      set a := (takeLine x).1 with ha
      set x1 := (takeLine x).2 with hx1def
      have hsp : x = a ++ x1 := takeLine_splits x
      have halen : a.length < m := by omega
      have hL8 := takeLine_eq_of_shared m x y hshare hmx hmy halen
      rw [hL8]
      have hx1 : x1 = x.drop a.length := by
        rw [hsp, List.drop_left]
      have hxlensplit : x.length = a.length + x1.length := by
        rw [hsp]
        simp
      have hshare2 : x1.take (m - a.length)
          = (y.drop a.length).take (m - a.length) := by
        rw [hx1, ← List.drop_take, ← List.drop_take, hshare]
      have hlen1 : m - a.length ≤ x1.length := by omega
      have hlen2 : m - a.length ≤ (y.drop a.length).length := by
        simp only [List.length_drop]
        omega
      have hpos1 : textPosCore x1 k nc < m - a.length := by omega
      have hxlt : x1.length ≤ n := by
        have hlt := takeLine_snd_length_lt hxne
        rw [← hx1def] at hlt
        omega
      rw [ih x1 hxlt (y.drop a.length) (m - a.length) k nc hshare2 hlen1 hlen2 hpos1]

/-- Offset stability: any position whose computed offset lies strictly before
`s` has the same offset in `content.take s ++ repl ++ content.drop e` as in
`content` (the form used by `_apply_text_edits_to_file`, where `s ≤ e ≤ len`).
-/
theorem textPosCore_spliceAt_stable (content repl : List Char) (s e nl nc : Nat)
    (hse : s ≤ e) (helen : e ≤ content.length) (hpos : textPosCore content nl nc < s) :
    textPosCore (spliceAt content s e repl) nl nc = textPosCore content nl nc := by
  have hshare : content.take s = (spliceAt content s e repl).take s := by
    unfold spliceAt
    rw [List.append_assoc, List.take_append_of_le_length (by simp; omega), List.take_take,
      Nat.min_self]
  have hlens : s ≤ (spliceAt content s e repl).length := by
    unfold spliceAt
    simp
    omega
  exact textPosCore_stable_aux content.length content (le_refl _) _ s nl nc hshare
    (by omega) hlens hpos

/-! ## Sorting and applying workspace edits -/

theorem keyLt_asymm {a b : Int × Int} (h : keyLt a b = true) : keyLt b a = false := by
  unfold keyLt at h ⊢
  simp only [decide_eq_true_eq] at h
  simp only [decide_eq_false_iff_not]
  push_neg
  omega

theorem keyLt_false_trans {a b c : Int × Int} (hab : keyLt a b = false)
    (hbc : keyLt b c = false) : keyLt a c = false := by
  unfold keyLt at hab hbc ⊢
  simp only [decide_eq_false_iff_not] at hab hbc ⊢
  push_neg at hab hbc ⊢
  rcases lt_trichotomy a.1 c.1 with h1 | h1 | h1
  · constructor
    · omega
    · intro h2
      omega
  · constructor
    · omega
    · intro h2
      have hb1 : b.1 = a.1 ∨ a.1 < b.1 → True := fun _ => trivial
      omega
  · constructor
    · omega
    · intro h2
      omega

theorem insertEditDesc_perm (e : Json) (l : List Json) :
    (insertEditDesc e l).Perm (e :: l) := by
  induction l with
  | nil => exact List.Perm.refl _
  | cons x xs ih =>
    unfold insertEditDesc
    by_cases h : keyLt (editSortKey e) (editSortKey x) = true
    · rw [if_pos h]
      exact (List.Perm.cons x ih).trans (List.Perm.swap e x xs)
    · rw [if_neg h]

theorem mem_insertEditDesc {y e : Json} {l : List Json} (h : y ∈ insertEditDesc e l) :
    y = e ∨ y ∈ l := by
  have := (insertEditDesc_perm e l).mem_iff.mp h
  simpa using this

theorem sort_text_edits_descending_perm (edits : List Json) :
    (sort_text_edits_descending edits).Perm edits := by
  induction edits with
  | nil => exact List.Perm.refl _
  | cons x xs ih =>
    unfold sort_text_edits_descending at ih ⊢
    simp only [List.foldr_cons]
    exact (insertEditDesc_perm ..).trans (List.Perm.cons x ih)

theorem insertEditDesc_pairwise {e : Json} {l : List Json}
    (h : l.Pairwise fun a b => keyLt (editSortKey a) (editSortKey b) = false) :
    (insertEditDesc e l).Pairwise fun a b => keyLt (editSortKey a) (editSortKey b) = false := by
  induction l with
  | nil =>
    unfold insertEditDesc
    exact List.pairwise_singleton ..
  | cons x xs ih =>
    rw [List.pairwise_cons] at h
    unfold insertEditDesc
    by_cases hk : keyLt (editSortKey e) (editSortKey x) = true
    · rw [if_pos hk]
      rw [List.pairwise_cons]
      constructor
      · intro y hy
        rcases mem_insertEditDesc hy with rfl | hy
        · exact keyLt_asymm hk
        · exact h.1 y hy
      · exact ih h.2
    · rw [if_neg hk]
      rw [List.pairwise_cons]
      constructor
      · intro y hy
        rcases List.mem_cons.mp hy with rfl | hy
        · exact Bool.eq_false_iff.mpr hk
        · exact keyLt_false_trans (Bool.eq_false_iff.mpr hk) (h.1 y hy)
      · rw [List.pairwise_cons]
        exact h

theorem sort_text_edits_descending_pairwise (edits : List Json) :
    (sort_text_edits_descending edits).Pairwise
      fun a b => keyLt (editSortKey a) (editSortKey b) = false := by
  induction edits with
  | nil => exact List.Pairwise.nil
  | cons x xs ih =>
    unfold sort_text_edits_descending at ih ⊢
    simp only [List.foldr_cons]
    exact insertEditDesc_pairwise ih

theorem applyOneEdit_eq_splice (content : List Char) (edit : Json) :
    applyOneEdit content edit =
      match rangeStartEnd edit with
      | none => (content, false)
      | some (start_line, start_character, end_line, end_character) =>
        (spliceAt content
          (min (text_position_from_lsp content start_line start_character)
            (text_position_from_lsp content end_line end_character))
          (max (text_position_from_lsp content start_line start_character)
            (text_position_from_lsp content end_line end_character))
          (newTextOf edit), true) := by
  unfold applyOneEdit
  cases hr : rangeStartEnd edit with
  | none => rfl
  | some r =>
    obtain ⟨sl, sc, el, ec⟩ := r
    simp only []
    by_cases h : text_position_from_lsp content el ec < text_position_from_lsp content sl sc
    · rw [if_pos h]
      rw [Nat.min_eq_right (by omega), Nat.max_eq_left (by omega)]
    · rw [if_neg h]
      rw [Nat.min_eq_left (by omega), Nat.max_eq_right (by omega)]

/-- The per-file application of a failing (or succeeding) file is a function
of that file's own content only. -/
theorem applyWorkspaceLoop_spec :
    ∀ (batch : List (String × List Json)) (fs : String → Option (List Char))
      (writeOk : String → Bool) (cf ce : Nat),
      (batch.map Prod.fst).Nodup →
      (applyWorkspaceLoop batch fs writeOk cf ce).1.1
          = cf + (batch.countP fun pe =>
              decide (0 < (apply_text_edits_to_file (fs pe.1) (writeOk pe.1) pe.2).1)) ∧
      (applyWorkspaceLoop batch fs writeOk cf ce).1.2
          = ce + (batch.map fun pe =>
              (apply_text_edits_to_file (fs pe.1) (writeOk pe.1) pe.2).1).sum ∧
      (∀ pp ee, (pp, ee) ∈ batch → (applyWorkspaceLoop batch fs writeOk cf ce).2 pp
          = match (apply_text_edits_to_file (fs pp) (writeOk pp) ee).2 with
            | some c => some c
            | none => fs pp) ∧
      (∀ q, q ∉ batch.map Prod.fst → (applyWorkspaceLoop batch fs writeOk cf ce).2 q = fs q) := by
  intro batch
  induction batch with
  | nil =>
    intro fs writeOk cf ce _
    refine ⟨by simp [applyWorkspaceLoop], by simp [applyWorkspaceLoop], ?_, ?_⟩
    · intro pp ee hpe; simp at hpe
    · intro q _; rfl
  | cons head rest ih =>
    intro fs writeOk cf ce hnodup
    obtain ⟨p, es⟩ := head
    have hnodup' : (rest.map Prod.fst).Nodup := by
      simp only [List.map_cons, List.nodup_cons] at hnodup
      exact hnodup.2
    have hpnotin : p ∉ rest.map Prod.fst := by
      simp only [List.map_cons, List.nodup_cons] at hnodup
      exact hnodup.1
    unfold applyWorkspaceLoop
    by_cases hes : es.isEmpty
    · rw [if_pos hes]
      have hes' : es = [] := List.isEmpty_iff.mp hes
      subst hes'
      obtain ⟨ih1, ih2, ih3, ih4⟩ := ih fs writeOk cf ce hnodup'
      have happly1 : (apply_text_edits_to_file (fs p) (writeOk p) ([] : List Json)).1 = 0 := by
        cases hfs : fs p <;> simp [apply_text_edits_to_file, sort_text_edits_descending]
      have happly2 : (apply_text_edits_to_file (fs p) (writeOk p) ([] : List Json)).2 = none := by
        cases hfs : fs p <;> simp [apply_text_edits_to_file, sort_text_edits_descending]
      refine ⟨?_, ?_, ?_, ?_⟩
      · rw [ih1]
        simp only [List.countP_cons, happly1]
        norm_num
      · rw [ih2]
        simp only [List.map_cons, List.sum_cons, happly1]
        norm_num
      · intro pp ee hpe
        rcases List.mem_cons.mp hpe with heq | hpe
        · obtain ⟨rfl, rfl⟩ := Prod.mk.injEq .. |>.mp heq
          rw [happly2, ih4 pp hpnotin]
        · exact ih3 pp ee hpe
      · intro q hq
        simp only [List.map_cons, List.mem_cons] at hq
        push_neg at hq
        exact ih4 q (by simpa using hq.2)
    · rw [if_neg hes]
      set r := apply_text_edits_to_file (fs p) (writeOk p) es with hrdef
      set fs' : String → Option (List Char) :=
        (match r.2 with
          | some newContent => fun q => if q = p then some newContent else fs q
          | none => fs) with hfsdef
      have hfs'_other : ∀ q, q ≠ p → fs' q = fs q := by
        intro q hq
        rw [hfsdef]
        cases r.2 with
        | none => rfl
        | some c => simp [hq]
      have hfs'_p : fs' p = match r.2 with | some c => some c | none => fs p := by
        rw [hfsdef]
        cases r.2 with
        | none => rfl
        | some c => simp
      obtain ⟨ih1, ih2, ih3, ih4⟩ := ih fs' writeOk
        (if 0 < r.1 then cf + 1 else cf) (if 0 < r.1 then ce + r.1 else ce) hnodup'
      have hsame : ∀ pe ∈ rest, apply_text_edits_to_file (fs' pe.1) (writeOk pe.1) pe.2
          = apply_text_edits_to_file (fs pe.1) (writeOk pe.1) pe.2 := by
        intro pe hpe
        have hne : pe.1 ≠ p := by
          intro hh
          exact hpnotin (hh ▸ List.mem_map_of_mem Prod.fst hpe)
        rw [hfs'_other pe.1 hne]
      have hcount : (rest.countP fun pe =>
            decide (0 < (apply_text_edits_to_file (fs' pe.1) (writeOk pe.1) pe.2).1))
          = rest.countP fun pe =>
            decide (0 < (apply_text_edits_to_file (fs pe.1) (writeOk pe.1) pe.2).1) := by
        refine List.countP_congr ?_
        intro pe hpe
        rw [hsame pe hpe]
      have hmap : (rest.map fun pe =>
            (apply_text_edits_to_file (fs' pe.1) (writeOk pe.1) pe.2).1)
          = rest.map fun pe =>
            (apply_text_edits_to_file (fs pe.1) (writeOk pe.1) pe.2).1 := by
        refine List.map_congr_left ?_
        intro pe hpe
        rw [hsame pe hpe]
      refine ⟨?_, ?_, ?_, ?_⟩
      · rw [ih1, hcount]
        simp only [List.countP_cons]
        rw [← hrdef]
        by_cases hr1 : 0 < r.1
        · rw [if_pos hr1]
          have hd : decide (0 < r.1) = true := by simpa using hr1
          rw [hd]
          norm_num
          omega
        · rw [if_neg hr1]
          have hd : decide (0 < r.1) = false := by simpa using hr1
          rw [hd]
          norm_num
      · rw [ih2, hmap]
        simp only [List.map_cons, List.sum_cons]
        rw [← hrdef]
        by_cases hr1 : 0 < r.1
        · rw [if_pos hr1]
          omega
        · rw [if_neg hr1]
          omega
      · intro pp ee hpe
        rcases List.mem_cons.mp hpe with heq | hmem
        · obtain ⟨rfl, rfl⟩ := Prod.mk.injEq .. |>.mp heq
          rw [ih4 pp hpnotin, hfs'_p, ← hrdef]
        · have hne : pp ≠ p := by
            intro hh
            subst hh
            exact hpnotin (List.mem_map_of_mem Prod.fst hmem)
          rw [ih3 pp ee hmem, hfs'_other pp hne]
      · intro q hq
        simp only [List.map_cons, List.mem_cons] at hq
        push_neg at hq
        rw [ih4 q (by simpa using hq.2), hfs'_other q hq.1]

/-! ## Dict semantics and client state machine lemmas -/

theorem dictGet_dictSet_self {β : Type} (k : String) (v : β) (d : List (String × β)) :
    dictGet k (dictSet k v d) = some v := by
  induction d with
  | nil => simp [dictSet, dictGet]
  | cons kv rest ih =>
    obtain ⟨k', v'⟩ := kv
    unfold dictSet
    by_cases h : k' = k
    · rw [if_pos h]
      unfold dictGet
      rw [if_pos h]
    · rw [if_neg h]
      unfold dictGet
      rw [if_neg h]
      exact ih

theorem dictGet_dictSet_other {β : Type} {k q : String} (v : β) (d : List (String × β))
    (h : q ≠ k) : dictGet q (dictSet k v d) = dictGet q d := by
  induction d with
  | nil =>
    simp only [dictSet, dictGet]
    rw [if_neg (fun hh => h hh.symm)]
  | cons kv rest ih =>
    obtain ⟨k', v'⟩ := kv
    unfold dictSet
    by_cases hk : k' = k
    · rw [if_pos hk]
      unfold dictGet
      have hkq : k' ≠ q := by
        intro hh
        exact h (hh.symm.trans hk)
      rw [if_neg hkq, if_neg hkq]
    · rw [if_neg hk]
      unfold dictGet
      by_cases hq : k' = q
      · rw [if_pos hq, if_pos hq]
      · rw [if_neg hq, if_neg hq]
        exact ih

theorem dictKeys_dictSet {β : Type} (k : String) (v : β) (d : List (String × β)) :
    (dictSet k v d).map Prod.fst =
      if k ∈ d.map Prod.fst then d.map Prod.fst else d.map Prod.fst ++ [k] := by
  induction d with
  | nil => simp [dictSet]
  | cons kv rest ih =>
    obtain ⟨k', v'⟩ := kv
    unfold dictSet
    by_cases h : k' = k
    · rw [if_pos h]
      subst h
      simp
    · rw [if_neg h]
      simp only [List.map_cons, List.mem_cons]
      rw [ih]
      by_cases hm : k ∈ rest.map Prod.fst
      · rw [if_pos hm, if_pos (Or.inr hm)]
      · have hnotin : ¬(k = k' ∨ k ∈ rest.map Prod.fst) := by
          intro hh
          rcases hh with hh | hh
          · exact h hh.symm
          · exact hm hh
        rw [if_neg hm, if_neg hnotin]
        simp

theorem dictKeys_dictSet_nodup {β : Type} (k : String) (v : β) (d : List (String × β))
    (h : (d.map Prod.fst).Nodup) : ((dictSet k v d).map Prod.fst).Nodup := by
  rw [dictKeys_dictSet]
  by_cases hm : k ∈ d.map Prod.fst
  · rw [if_pos hm]; exact h
  · rw [if_neg hm]
    simp [List.nodup_append, h, hm]

theorem requestIds_append (a b : List SentMessage) :
    requestIds (a ++ b) = requestIds a ++ requestIds b := by
  unfold requestIds
  exact List.filterMap_append ..

theorem mem_range'_ge : ∀ (n s m : Nat), m ∈ List.range' s n → s ≤ m := by
  intro n
  induction n with
  | zero => intro s m h; simp [List.range'] at h
  | succ n ih =>
    intro s m h
    rcases List.mem_cons.mp h with rfl | h
    · exact le_refl _
    · exact Nat.le_of_succ_le (ih (s + 1) m h)

theorem range'_nodup : ∀ (n s : Nat), (List.range' s n).Nodup := by
  intro n
  induction n with
  | zero => intro s; simp [List.range']
  | succ n ih =>
    intro s
    refine List.nodup_cons.mpr ⟨?_, ih (s + 1)⟩
    intro hmem
    have := mem_range'_ge n (s + 1) s hmem
    omega

theorem send_message_running {st : ClientState} (m : SentMessage)
    (h : st.processRunning = true) :
    send_message st m = { st with sent := st.sent ++ [m] } := by
  unfold send_message
  rw [if_pos h]

theorem send_request_eq {st : ClientState} (h : st.processRunning = true)
    (method : String) (rootUri : Option String) (cb : Nat) :
    send_request st method rootUri cb =
      { st with
        nextRequestId := st.nextRequestId + 1
        pendingRequests := st.pendingRequests ++ [(st.nextRequestId, cb)]
        sent := st.sent ++ [.request st.nextRequestId method rootUri] } := by
  unfold send_request
  rw [send_message_running _ (by simpa using h)]

theorem send_notification_ids (st : ClientState) (method : String) :
    requestIds (send_notification st method).sent = requestIds st.sent ∧
      (send_notification st method).nextRequestId = st.nextRequestId := by
  unfold send_notification send_message
  by_cases h : st.processRunning
  · rw [if_pos h]
    refine ⟨?_, rfl⟩
    simp only []
    rw [requestIds_append]
    simp [requestIds]
  · rw [if_neg h]
    exact ⟨rfl, rfl⟩

theorem start_process_eq (env : Env) (root : String) (st : ClientState)
    (h : env.serverAvailable = true) :
    start_process env root st =
      ({ processRunning := true
         rootPath := some root
         spawnWorkingDir := some root
         isReady := false
         nextRequestId := 2
         pendingRequests := [(1, 0)]
         openedDocumentVersions := []
         pendingDocumentSync := []
         sent := [.request 1 "initialize" (some (path_to_uri env root))] }, true) := by
  unfold start_process
  rw [if_pos h]
  unfold send_initialize_request
  simp only []
  rw [send_request_eq rfl]
  simp

theorem sendManyRequests_spec :
    ∀ (reqs : List (String × Nat)) (st : ClientState), st.processRunning = true →
      requestIds (sendManyRequests st reqs).sent
          = requestIds st.sent ++ List.range' st.nextRequestId reqs.length ∧
      (sendManyRequests st reqs).nextRequestId = st.nextRequestId + reqs.length ∧
      (sendManyRequests st reqs).processRunning = true := by
  intro reqs
  induction reqs with
  | nil =>
    intro st h
    exact ⟨by simp [sendManyRequests, List.range'], by simp [sendManyRequests], by
      simpa [sendManyRequests] using h⟩
  | cons mc rest ih =>
    intro st h
    obtain ⟨m, cb⟩ := mc
    unfold sendManyRequests
    rw [send_request_eq h]
    set st' : ClientState :=
      { st with
        nextRequestId := st.nextRequestId + 1
        pendingRequests := st.pendingRequests ++ [(st.nextRequestId, cb)]
        sent := st.sent ++ [.request st.nextRequestId m none] } with hst'
    have hrun' : st'.processRunning = true := by rw [hst']; exact h
    have hsent : st'.sent = st.sent ++ [SentMessage.request st.nextRequestId m none] := by
      rw [hst']
    have hnext : st'.nextRequestId = st.nextRequestId + 1 := by rw [hst']
    obtain ⟨ih1, ih2, ih3⟩ := ih st' hrun'
    refine ⟨?_, ?_, ih3⟩
    · rw [ih1, hsent, hnext, requestIds_append]
      simp only [List.length_cons]
      rw [show List.range' st.nextRequestId (rest.length + 1)
          = st.nextRequestId :: List.range' (st.nextRequestId + 1) rest.length from rfl]
      simp [requestIds]
    · rw [ih2, hnext]
      simp only [List.length_cons]
      omega

/-! ## Document synchronization lemmas -/

theorem open_or_change_not_ready {env : Env} {st : ClientState} (h : st.isReady = false)
    (path text lang : String) :
    open_or_change_document env st path text lang =
      ({ st with pendingDocumentSync :=
          dictSet (path_to_uri env (env.absPath path)) (text, lang) st.pendingDocumentSync },
        false) := by
  unfold open_or_change_document
  rw [if_pos (by simp [h])]

theorem open_or_change_ready_fresh {env : Env} {st : ClientState} {path : String}
    (text lang : String) (hr : st.isReady = true) (hp : st.processRunning = true)
    (hv : dictGet (path_to_uri env (env.absPath path)) st.openedDocumentVersions = none) :
    open_or_change_document env st path text lang =
      ({ st with
          openedDocumentVersions :=
            dictSet (path_to_uri env (env.absPath path)) 1 st.openedDocumentVersions
          sent := st.sent ++
            [.didOpen (path_to_uri env (env.absPath path)) 1 text lang] }, true) := by
  unfold open_or_change_document
  rw [if_neg (by simp [hr])]
  rw [hv]
  dsimp only
  rw [send_message_running _ (by simpa using hp)]

theorem open_or_change_ready_existing {env : Env} {st : ClientState} {path : String}
    {v : Nat} (text lang : String) (hr : st.isReady = true) (hp : st.processRunning = true)
    (hv : dictGet (path_to_uri env (env.absPath path)) st.openedDocumentVersions = some v) :
    open_or_change_document env st path text lang =
      ({ st with
          openedDocumentVersions :=
            dictSet (path_to_uri env (env.absPath path)) (v + 1) st.openedDocumentVersions
          sent := st.sent ++
            [.didChange (path_to_uri env (env.absPath path)) (v + 1) text] }, true) := by
  unfold open_or_change_document
  rw [if_neg (by simp [hr])]
  rw [hv]
  dsimp only
  rw [send_message_running _ (by simpa using hp)]

theorem openChanges_log (env : Env) (path lang : String) :
    ∀ (texts : List String) (st : ClientState) (v : Nat),
      st.isReady = true → st.processRunning = true →
      dictGet (path_to_uri env (env.absPath path)) st.openedDocumentVersions = some v →
      (openChangeCalls env st (texts.map fun t => (path, t, lang))).sent
        = st.sent ++ List.zipWith
            (fun ver t => SentMessage.didChange (path_to_uri env (env.absPath path)) ver t)
            (List.range' (v + 1) texts.length) texts := by
  intro texts
  induction texts with
  | nil => intro st v _ _ _; simp [openChangeCalls]
  | cons t ts ih =>
    intro st v hr hp hv
    simp only [List.map_cons]
    unfold openChangeCalls
    rw [open_or_change_ready_existing t lang hr hp hv]
    set st1 : ClientState :=
      { st with
        openedDocumentVersions :=
          dictSet (path_to_uri env (env.absPath path)) (v + 1) st.openedDocumentVersions
        sent := st.sent ++
          [.didChange (path_to_uri env (env.absPath path)) (v + 1) t] } with hst1
    have h1 : st1.isReady = true := by rw [hst1]; exact hr
    have h2 : st1.processRunning = true := by rw [hst1]; exact hp
    have h3 : dictGet (path_to_uri env (env.absPath path)) st1.openedDocumentVersions
        = some (v + 1) := by
      rw [hst1]
      exact dictGet_dictSet_self ..
    rw [ih st1 (v + 1) h1 h2 h3]
    have hsent : st1.sent = st.sent ++
        [SentMessage.didChange (path_to_uri env (env.absPath path)) (v + 1) t] := by
      rw [hst1]
    rw [hsent]
    simp only [List.length_cons]
    rw [show List.range' (v + 1) (ts.length + 1)
        = (v + 1) :: List.range' (v + 2) ts.length from rfl]
    simp

theorem syncVersionsFor_append (uri : String) (a b : List SentMessage) :
    syncVersionsFor uri (a ++ b) = syncVersionsFor uri a ++ syncVersionsFor uri b := by
  unfold syncVersionsFor
  exact List.filterMap_append ..

theorem syncVersionsFor_zipWith (uri : String) :
    ∀ (texts : List String) (a : Nat),
      syncVersionsFor uri
        (List.zipWith (fun ver t => SentMessage.didChange uri ver t)
          (List.range' a texts.length) texts)
        = List.range' a texts.length := by
  intro texts
  induction texts with
  | nil => intro a; rfl
  | cons t ts ih =>
    intro a
    simp only [List.length_cons]
    rw [show List.range' a (ts.length + 1) = a :: List.range' (a + 1) ts.length from rfl]
    simp only [List.zipWith_cons_cons]
    unfold syncVersionsFor at ih ⊢
    simp only [List.filterMap_cons]
    simp [ih (a + 1)]

/-! ## Pending-sync queue lemmas -/

theorem openChangeCalls_not_ready (env : Env) :
    ∀ (calls : List (String × String × String)) (st : ClientState), st.isReady = false →
      openChangeCalls env st calls =
        { st with pendingDocumentSync :=
            (calls.foldl
              (fun d c => dictSet (path_to_uri env (env.absPath c.1)) (c.2.1, c.2.2) d)
              st.pendingDocumentSync) } := by
  intro calls
  induction calls with
  | nil => intro st _; rfl
  | cons c rest ih =>
    intro st h
    obtain ⟨p, t, lg⟩ := c
    unfold openChangeCalls
    rw [open_or_change_not_ready h]
    rw [ih _ (by simpa using h)]
    rfl

theorem pendingKeys_foldl (env : Env) :
    ∀ (calls : List (String × String × String)) (d : List (String × (String × String))),
      ((calls.foldl
          (fun d c => dictSet (path_to_uri env (env.absPath c.1)) (c.2.1, c.2.2) d) d).map
        Prod.fst)
        = calls.foldl
            (fun acc c => if path_to_uri env (env.absPath c.1) ∈ acc then acc
              else acc ++ [path_to_uri env (env.absPath c.1)])
            (d.map Prod.fst) := by
  intro calls
  induction calls with
  | nil => intro d; rfl
  | cons c rest ih =>
    intro d
    simp only [List.foldl_cons]
    rw [ih]
    congr 1
    exact dictKeys_dictSet ..

theorem pendingNodup_foldl (env : Env) :
    ∀ (calls : List (String × String × String)) (d : List (String × (String × String))),
      (d.map Prod.fst).Nodup →
      ((calls.foldl
          (fun d c => dictSet (path_to_uri env (env.absPath c.1)) (c.2.1, c.2.2) d) d).map
        Prod.fst).Nodup := by
  intro calls
  induction calls with
  | nil => intro d h; exact h
  | cons c rest ih =>
    intro d h
    simp only [List.foldl_cons]
    exact ih _ (dictKeys_dictSet_nodup _ _ _ h)

theorem pendingGet_foldl (env : Env) :
    ∀ (calls : List (String × String × String)) (d : List (String × (String × String)))
      (u : String),
      dictGet u (calls.foldl
          (fun d c => dictSet (path_to_uri env (env.absPath c.1)) (c.2.1, c.2.2) d) d)
        = calls.foldl
            (fun acc c => if path_to_uri env (env.absPath c.1) = u then some (c.2.1, c.2.2)
              else acc)
            (dictGet u d) := by
  intro calls
  induction calls with
  | nil => intro d u; rfl
  | cons c rest ih =>
    intro d u
    simp only [List.foldl_cons]
    rw [ih]
    congr 1
    by_cases h : path_to_uri env (env.absPath c.1) = u
    · rw [if_pos h, ← h, dictGet_dictSet_self]
    · rw [if_neg h, dictGet_dictSet_other _ _ (fun hh => h hh.symm)]

theorem firstOccurrence_queued (env : Env) (calls : List (String × String × String)) :
    firstOccurrenceOrder (queuedUris env calls)
      = calls.foldl
          (fun acc c => if path_to_uri env (env.absPath c.1) ∈ acc then acc
            else acc ++ [path_to_uri env (env.absPath c.1)])
          [] := by
  unfold firstOccurrenceOrder queuedUris
  rw [List.foldl_map]

theorem lastQueuedValue_eq_foldl (env : Env) (calls : List (String × String × String))
    (u : String) :
    lastQueuedValue env calls u
      = calls.foldl
          (fun acc c => if path_to_uri env (env.absPath c.1) = u then some (c.2.1, c.2.2)
            else acc)
          none := rfl

theorem dictGet_of_mem_nodup {β : Type} :
    ∀ (d : List (String × β)) (k : String) (v : β),
      (d.map Prod.fst).Nodup → (k, v) ∈ d → dictGet k d = some v := by
  intro d
  induction d with
  | nil => intro k v _ h; simp at h
  | cons kv rest ih =>
    intro k v hnodup hmem
    obtain ⟨k', v'⟩ := kv
    simp only [List.map_cons, List.nodup_cons] at hnodup
    rcases List.mem_cons.mp hmem with heq | hmem
    · obtain ⟨rfl, rfl⟩ := Prod.mk.injEq .. |>.mp heq
      unfold dictGet
      rw [if_pos rfl]
    · unfold dictGet
      have hne : k' ≠ k := by
        intro hh
        subst hh
        exact hnodup.1 (List.mem_map_of_mem Prod.fst hmem)
      rw [if_neg hne]
      exact ih k v hnodup.2 hmem

/-! ## Flush lemmas -/

theorem stringData_append (a b : String) : (a ++ b).data = a.data ++ b.data := rfl

theorem isPrefixOf_append_self : ∀ (a b : List Char), (a.isPrefixOf (a ++ b)) = true := by
  intro a b
  induction a with
  | nil => simp [List.isPrefixOf]
  | cons c cs ih => simp [List.isPrefixOf, ih]

theorem uri_to_path_fileUri (q : String) : uri_to_path ("file://" ++ q) = some q := by
  unfold uri_to_path
  rw [if_pos (by rw [stringData_append]; exact isPrefixOf_append_self ..)]
  congr 1

theorem path_to_uri_def (env : Env) (p : String) :
    path_to_uri env p = "file://" ++ env.absPath p := rfl

theorem flushLoop_fresh (env : Env) (habs : ∀ p, env.absPath (env.absPath p) = env.absPath p) :
    ∀ (items : List (String × String × String)) (st : ClientState),
      st.isReady = true → st.processRunning = true →
      (∀ c ∈ items, ∃ p0, c.1 = path_to_uri env (env.absPath p0)) →
      (∀ c ∈ items, dictGet c.1 st.openedDocumentVersions = none) →
      (items.map Prod.fst).Nodup →
      (flushLoop env st items).sent
        = st.sent ++ items.map fun c => SentMessage.didOpen c.1 1 c.2.1 c.2.2 := by
  intro items
  induction items with
  | nil => intro st _ _ _ _ _; simp [flushLoop]
  | cons c rest ih =>
    intro st hr hp hrep hfresh hnodup
    obtain ⟨u, tx, lg⟩ := c
    obtain ⟨p0, hu0⟩ := hrep (u, tx, lg) (List.mem_cons_self ..)
    have hu : u = "file://" ++ env.absPath p0 := by
      have h' : u = path_to_uri env (env.absPath p0) := hu0
      rw [h', path_to_uri_def, habs]
    have huri : path_to_uri env (env.absPath (env.absPath p0))
        = "file://" ++ env.absPath p0 := by
      rw [path_to_uri_def, habs, habs]
    subst hu
    unfold flushLoop
    rw [uri_to_path_fileUri]
    dsimp only
    have hfreshhead : dictGet (path_to_uri env (env.absPath (env.absPath p0)))
        st.openedDocumentVersions = none := by
      rw [huri]
      exact hfresh _ (List.mem_cons_self ..)
    rw [open_or_change_ready_fresh tx lg hr hp hfreshhead]
    set st1 : ClientState :=
      { st with
        openedDocumentVersions :=
          dictSet (path_to_uri env (env.absPath (env.absPath p0))) 1
            st.openedDocumentVersions
        sent := st.sent ++
          [.didOpen (path_to_uri env (env.absPath (env.absPath p0))) 1 tx lg] } with hst1
    simp only [List.map_cons, List.nodup_cons] at hnodup
    have h1 : st1.isReady = true := by rw [hst1]; exact hr
    have h2 : st1.processRunning = true := by rw [hst1]; exact hp
    have h3 : ∀ c ∈ rest, ∃ p1, c.1 = path_to_uri env (env.absPath p1) := by
      intro c hc
      exact hrep c (List.mem_cons_of_mem _ hc)
    have h4 : ∀ c ∈ rest, dictGet c.1 st1.openedDocumentVersions = none := by
      intro c hc
      rw [hst1]
      simp only []
      rw [dictGet_dictSet_other]
      · exact hfresh c (List.mem_cons_of_mem _ hc)
      · rw [huri]
        intro hh
        exact hnodup.1 (hh ▸ List.mem_map_of_mem Prod.fst hc)
    rw [ih st1 h1 h2 h3 h4 hnodup.2]
    have hsent : st1.sent = st.sent ++
        [SentMessage.didOpen (path_to_uri env (env.absPath (env.absPath p0))) 1 tx lg] := by
      rw [hst1]
    rw [hsent, huri]
    simp

theorem didOpenUris_append (a b : List SentMessage) :
    didOpenUris (a ++ b) = didOpenUris a ++ didOpenUris b := by
  unfold didOpenUris
  exact List.filterMap_append ..

theorem didOpenUris_map_didOpen (items : List (String × String × String)) :
    didOpenUris (items.map fun c => SentMessage.didOpen c.1 1 c.2.1 c.2.2)
      = items.map Prod.fst := by
  induction items with
  | nil => rfl
  | cons c rest ih =>
    simp only [List.map_cons]
    unfold didOpenUris at ih ⊢
    simp only [List.filterMap_cons]
    rw [ih]

theorem docSyncMessages_append (a b : List SentMessage) :
    docSyncMessages (a ++ b) = docSyncMessages a ++ docSyncMessages b := by
  unfold docSyncMessages
  exact List.filter_append ..

/-! ## Connection lifecycle lemmas -/

theorem stop_processRunning (st : ClientState) : (stop st).processRunning = false := by
  unfold stop
  by_cases h : st.processRunning <;> simp [h]

theorem ensure_started_not_running (env : Env) (st : ClientState) (root_path : String)
    (h : st.processRunning = false) :
    ensure_started env st root_path =
      start_process env
        (if env.isDir (env.absPath root_path) then env.absPath root_path else env.cwd) st := by
  unfold ensure_started
  rw [if_neg (by simp [h])]

/-! ## JSON serializer / parser round-trip lemmas -/

theorem hexVal_hexDigitChar {d : Nat} (h : d < 16) : hexVal? (hexDigitChar d) = some d := by
  interval_cases d <;> decide

theorem isValidChar_of_lt {n : Nat} (h : n < 32) : n.isValidChar :=
  Or.inl (by omega)

theorem escChar_control {c : Char} (h1 : c ≠ '"') (h2 : c ≠ '\\') (h3 : c ≠ '\n')
    (h4 : c ≠ '\r') (h5 : c ≠ '\t') (h6 : c ≠ '\x08') (h7 : c ≠ '\x0c')
    (h8 : c.toNat < 32) :
    escChar c =
      ['\\', 'u', '0', '0', hexDigitChar (c.toNat / 16), hexDigitChar (c.toNat % 16)] := by
  simp [escChar, h1, h2, h3, h4, h5, h6, h7, h8]

theorem escChar_plain {c : Char} (h1 : c ≠ '"') (h2 : c ≠ '\\') (h8 : 32 ≤ c.toNat) :
    escChar c = [c] := by
  have h3 : c ≠ '\n' := by rintro rfl; exact absurd h8 (by decide)
  have h4 : c ≠ '\r' := by rintro rfl; exact absurd h8 (by decide)
  have h5 : c ≠ '\t' := by rintro rfl; exact absurd h8 (by decide)
  have h6 : c ≠ '\x08' := by rintro rfl; exact absurd h8 (by decide)
  have h7 : c ≠ '\x0c' := by rintro rfl; exact absurd h8 (by decide)
  have h9 : ¬ c.toNat < 32 := by omega
  simp [escChar, h1, h2, h3, h4, h5, h6, h7, h9]

theorem parseStringBody_escape : ∀ s rest : List Char,
    parseStringBody (escapeChars s ++ '"' :: rest) = some (s, rest) := by
  intro s
  induction s with
  | nil =>
    intro rest
    simp only [escapeChars, List.nil_append]
    rw [parseStringBody.eq_def]
    simp
  | cons c cs ih =>
    intro rest
    by_cases h1 : c = '"'
    · subst h1
      simp only [escapeChars, escChar, if_pos rfl, List.cons_append, List.append_assoc,
        List.nil_append]
      rw [parseStringBody.eq_def]
      simp +decide [unescChar, ih]
    by_cases h2 : c = '\\'
    · subst h2
      simp only [escapeChars, escChar, List.cons_append, List.append_assoc, List.nil_append]
      norm_num
      rw [parseStringBody.eq_def]
      simp +decide [unescChar, ih]
    by_cases h3 : c = '\n'
    · subst h3
      simp only [escapeChars, escChar, List.cons_append, List.append_assoc, List.nil_append]
      norm_num
      rw [parseStringBody.eq_def]
      simp +decide [unescChar, ih]
    by_cases h4 : c = '\r'
    · subst h4
      simp only [escapeChars, escChar, List.cons_append, List.append_assoc, List.nil_append]
      norm_num
      rw [parseStringBody.eq_def]
      simp +decide [unescChar, ih]
    by_cases h5 : c = '\t'
    · subst h5
      simp only [escapeChars, escChar, List.cons_append, List.append_assoc, List.nil_append]
      norm_num
      rw [parseStringBody.eq_def]
      simp +decide [unescChar, ih]
    by_cases h6 : c = '\x08'
    · subst h6
      simp only [escapeChars, escChar, List.cons_append, List.append_assoc, List.nil_append]
      norm_num
      rw [parseStringBody.eq_def]
      simp +decide [unescChar, ih]
    by_cases h7 : c = '\x0c'
    · subst h7
      simp only [escapeChars, escChar, List.cons_append, List.append_assoc, List.nil_append]
      norm_num
      rw [parseStringBody.eq_def]
      simp +decide [unescChar, ih]
    by_cases h8 : c.toNat < 32
    · have hd : c.toNat / 16 < 16 := by omega
      have hm : c.toNat % 16 < 16 := by omega
      have h0 : hexVal? '0' = some 0 := by decide
      have he : c.toNat / 16 * 16 + c.toNat % 16 = c.toNat := by omega
      have hv : (c.toNat / 16 * 16 + c.toNat % 16).isValidChar := by
        rw [he]; exact isValidChar_of_lt h8
      have hc2 : Char.ofNat (c.toNat / 16 * 16 + c.toNat % 16) = c := by
        rw [he]; exact Char.ofNat_toNat c
      simp only [escapeChars, escChar_control h1 h2 h3 h4 h5 h6 h7 h8, List.cons_append,
        List.append_assoc, List.nil_append]
      rw [parseStringBody.eq_def]
      simp +decide [hexVal_hexDigitChar hd, hexVal_hexDigitChar hm, h0, hv, hc2, ih]
    · have h8' : 32 ≤ c.toNat := by omega
      simp only [escapeChars, escChar_plain h1 h2 h8', List.cons_append, List.append_assoc,
        List.nil_append]
      rw [parseStringBody.eq_def]
      simp +decide [h1, h2, h8, ih]

theorem takeWhile_digits_nil {rest : List Char} (h : headNoDigit rest = true) :
    rest.takeWhile isDigitChar = [] := by
  cases rest with
  | nil => rfl
  | cons c cs =>
    simp only [headNoDigit, Bool.not_eq_true'] at h
    simp [List.takeWhile_cons, h]

theorem dropWhile_digits_self {rest : List Char} (h : headNoDigit rest = true) :
    rest.dropWhile isDigitChar = rest := by
  cases rest with
  | nil => rfl
  | cons c cs =>
    simp only [headNoDigit, Bool.not_eq_true'] at h
    simp [List.dropWhile_cons, h]

theorem parseNatDigits_natRepr (n : Nat) {rest : List Char} (h : headNoDigit rest = true) :
    parseNatDigits (natRepr n ++ rest) = some (n, rest) := by
  unfold parseNatDigits
  rw [takeWhile_append_of_all _ _ (natRepr_all_digits n), takeWhile_digits_nil h,
    dropWhile_append_of_all _ _ (natRepr_all_digits n), dropWhile_digits_self h]
  rw [if_neg (by simp [natRepr_ne_nil n]), List.append_nil, digitsVal_natRepr]

theorem jsize_pos : ∀ j : Json, 1 ≤ jsize j := by
  intro j
  cases j <;> simp only [jsize] <;> omega

theorem asize_pos : ∀ es : List Json, 1 ≤ asize es := by
  intro es
  cases es <;> simp only [asize] <;> omega

theorem osize_pos : ∀ fs : List (List Char × Json), 1 ≤ osize fs := by
  intro fs
  cases fs with
  | nil => simp [osize]
  | cons f fs => obtain ⟨k, v⟩ := f; simp only [osize]; omega

theorem headNoDigit_cons {c : Char} (h : isDigitChar c = false) (l : List Char) :
    headNoDigit (c :: l) = true := by
  simp [headNoDigit, h]

theorem headNoDigit_arrRest (es : List Json) (rest : List Char) :
    headNoDigit (dumpsArrRest es ++ ']' :: rest) = true := by
  cases es with
  | nil => exact headNoDigit_cons (by decide) rest
  | cons e es => exact headNoDigit_cons (by decide) _

theorem headNoDigit_objRest (fs : List (List Char × Json)) (rest : List Char) :
    headNoDigit (dumpsObjRest fs ++ '\x7d' :: rest) = true := by
  cases fs with
  | nil => exact headNoDigit_cons (by decide) rest
  | cons f fs => obtain ⟨k, v⟩ := f; exact headNoDigit_cons (by decide) _

theorem natRepr_head (n : Nat) : ∃ c cs, natRepr n = c :: cs ∧ isDigitChar c = true := by
  cases h : natRepr n with
  | nil => exact absurd h (natRepr_ne_nil n)
  | cons c cs =>
    refine ⟨c, cs, rfl, natRepr_all_digits n c ?_⟩
    rw [h]
    exact List.mem_cons_self c cs

theorem dumpsVal_head (j : Json) : ∃ c cs, dumpsVal j = c :: cs ∧ c ≠ ']' ∧ c ≠ '\x7d' := by
  cases j with
  | null => exact ⟨'n', ['u', 'l', 'l'], rfl, by decide, by decide⟩
  | bool b =>
    cases b with
    | false => exact ⟨'f', ['a', 'l', 's', 'e'], rfl, by decide, by decide⟩
    | true => exact ⟨'t', ['r', 'u', 'e'], rfl, by decide, by decide⟩
  | num n =>
    by_cases hn : n < 0
    · refine ⟨'-', natRepr (-n).toNat, ?_, by decide, by decide⟩
      simp [dumpsVal, intRepr, hn]
    · obtain ⟨c, cs, hc, hd⟩ := natRepr_head n.toNat
      refine ⟨c, cs, ?_, char_ne_of_digit_out hd (by decide),
        char_ne_of_digit_out hd (by decide)⟩
      simp [dumpsVal, intRepr, hn, hc]
  | str s => exact ⟨'"', escapeChars s ++ ['"'], rfl, by decide, by decide⟩
  | arr es =>
    cases es with
    | nil => exact ⟨'[', [']'], rfl, by decide, by decide⟩
    | cons e es =>
      exact ⟨'[', dumpsVal e ++ dumpsArrRest es ++ [']'], rfl, by decide, by decide⟩
  | obj fs =>
    cases fs with
    | nil => exact ⟨'\x7b', ['\x7d'], rfl, by decide, by decide⟩
    | cons f fs =>
      obtain ⟨k, v⟩ := f
      exact ⟨'\x7b', '"' :: escapeChars k ++ '"' :: ':' :: dumpsVal v ++ dumpsObjRest fs
        ++ ['\x7d'], rfl, by decide, by decide⟩

theorem parseVal_cons (fuel : Nat) (c : Char) (r1 : List Char) :
    parseVal (fuel + 1) (c :: r1) =
      (if c = 'n' then
        if r1.take 3 = ['u', 'l', 'l'] then some (.null, r1.drop 3) else none
      else if c = 't' then
        if r1.take 3 = ['r', 'u', 'e'] then some (.bool true, r1.drop 3) else none
      else if c = 'f' then
        if r1.take 4 = ['a', 'l', 's', 'e'] then some (.bool false, r1.drop 4) else none
      else if c = '"' then
        match parseStringBody r1 with
        | some (str, r) => some (.str str, r)
        | none => none
      else if c = '[' then
        match r1 with
        | [] => none
        | c2 :: r2 =>
          if c2 = ']' then some (.arr [], r2)
          else
            match parseItems fuel (c2 :: r2) with
            | some (es, r) => some (.arr es, r)
            | none => none
      else if c = '\x7b' then
        match r1 with
        | [] => none
        | c2 :: r2 =>
          if c2 = '\x7d' then some (.obj [], r2)
          else
            match parseFields fuel (c2 :: r2) with
            | some (fs, r) => some (.obj fs, r)
            | none => none
      else if c = '-' then
        match parseNatDigits r1 with
        | some (n, r) => some (.num (-(n : Int)), r)
        | none => none
      else if isDigitChar c then
        match parseNatDigits (c :: r1) with
        | some (n, r) => some (.num (n : Int), r)
        | none => none
      else none) := by
  show parseVal (Nat.succ fuel) (c :: r1) = _
  cases r1 with
  | nil => rw [parseVal.eq_3]
  | cons c2 r2 => rw [parseVal.eq_4]

theorem parseItems_succ (fuel : Nat) (s : List Char) :
    parseItems (fuel + 1) s =
      (match parseVal fuel s with
      | some (j, r) =>
        match r with
        | [] => none
        | c :: r2 =>
          if c = ',' then
            match parseItems fuel r2 with
            | some (es, r3) => some (j :: es, r3)
            | none => none
          else if c = ']' then some ([j], r2)
          else none
      | none => none) := by
  show parseItems (Nat.succ fuel) s = _
  rw [parseItems.eq_2]

theorem parseFields_cons (fuel : Nat) (c : Char) (r1 : List Char) :
    parseFields (fuel + 1) (c :: r1) =
      (if c = '"' then
        match parseStringBody r1 with
        | some (k, r2) =>
          match r2 with
          | [] => none
          | c2 :: r3 =>
            if c2 = ':' then
              match parseVal fuel r3 with
              | some (v, r4) =>
                match r4 with
                | [] => none
                | c3 :: r5 =>
                  if c3 = ',' then
                    match parseFields fuel r5 with
                    | some (fs, r6) => some ((k, v) :: fs, r6)
                    | none => none
                  else if c3 = '\x7d' then some ([(k, v)], r5)
                  else none
              | none => none
            else none
        | none => none
      else none) := by
  show parseFields (Nat.succ fuel) (c :: r1) = _
  rw [parseFields.eq_3]

theorem parse_dumps : ∀ fuel : Nat,
    (∀ (j : Json) (rest : List Char), (dumpsVal j).length < fuel → headNoDigit rest = true →
      parseVal fuel (dumpsVal j ++ rest) = some (j, rest)) ∧
    (∀ (e : Json) (es : List Json) (rest : List Char),
      (dumpsVal e).length + (dumpsArrRest es).length + 2 ≤ fuel →
      parseItems fuel (dumpsVal e ++ (dumpsArrRest es ++ ']' :: rest)) = some (e :: es, rest)) ∧
    (∀ (k : List Char) (v : Json) (fs : List (List Char × Json)) (rest : List Char),
      (escapeChars k).length + (dumpsVal v).length + (dumpsObjRest fs).length + 4 ≤ fuel →
      parseFields fuel
        ('"' :: (escapeChars k ++ '"' :: ':' :: (dumpsVal v ++ (dumpsObjRest fs ++ '\x7d' :: rest))))
        = some ((k, v) :: fs, rest)) := by
  intro fuel
  induction fuel with
  | zero =>
    refine ⟨?_, ?_, ?_⟩
    · intro j rest hsz _
      exact absurd hsz (by omega)
    · intro e es rest hsz
      exact absurd hsz (by omega)
    · intro k v fs rest hsz
      exact absurd hsz (by omega)
  | succ F ihF =>
    obtain ⟨ih1, ih2, ih3⟩ := ihF
    refine ⟨?_, ?_, ?_⟩
    · -- parseVal on a serialized value
      intro j rest hsz hrest
      cases j with
      | null =>
        rw [show dumpsVal Json.null ++ rest = 'n' :: 'u' :: 'l' :: 'l' :: rest from rfl,
          parseVal_cons]
        simp +decide
      | bool b =>
        cases b with
        | false =>
          rw [show dumpsVal (Json.bool false) ++ rest = 'f' :: 'a' :: 'l' :: 's' :: 'e' :: rest
            from rfl, parseVal_cons]
          simp +decide
        | true =>
          rw [show dumpsVal (Json.bool true) ++ rest = 't' :: 'r' :: 'u' :: 'e' :: rest
            from rfl, parseVal_cons]
          simp +decide
      | num n =>
        by_cases hn : n < 0
        · have hmk : ((-n).toNat : Int) = -n := Int.toNat_of_nonneg (by omega)
          rw [show dumpsVal (Json.num n) ++ rest = '-' :: (natRepr (-n).toNat ++ rest) from by
            simp [dumpsVal, intRepr, hn], parseVal_cons]
          simp +decide [parseNatDigits_natRepr _ hrest]
          omega
        · obtain ⟨c, cs, hc, hd⟩ := natRepr_head n.toNat
          have hb := digit_toNat_bounds hd
          have h1 : c ≠ 'n' := char_ne_of_digit_out hd (by decide)
          have h2 : c ≠ 't' := char_ne_of_digit_out hd (by decide)
          have h3 : c ≠ 'f' := char_ne_of_digit_out hd (by decide)
          have h4 : c ≠ '"' := char_ne_of_digit_out hd (by decide)
          have h5 : c ≠ '[' := char_ne_of_digit_out hd (by decide)
          have h6 : c ≠ '\x7b' := char_ne_of_digit_out hd (by decide)
          have h7 : c ≠ '-' := char_ne_of_digit_out hd (by decide)
          have hmk : (n.toNat : Int) = n := Int.toNat_of_nonneg (by omega)
          have hpn : parseNatDigits (c :: (cs ++ rest)) = some (n.toNat, rest) := by
            rw [show c :: (cs ++ rest) = natRepr n.toNat ++ rest from by
              rw [hc, List.cons_append]]
            exact parseNatDigits_natRepr _ hrest
          rw [show dumpsVal (Json.num n) ++ rest = c :: (cs ++ rest) from by
            simp [dumpsVal, intRepr, hn, hc], parseVal_cons]
          simp [h1, h2, h3, h4, h5, h6, h7, hd, hpn, hmk]
      | str s =>
        rw [show dumpsVal (Json.str s) ++ rest
            = '"' :: (escapeChars s ++ '"' :: rest) from by
          simp [dumpsVal], parseVal_cons]
        simp +decide [parseStringBody_escape s rest]
      | arr es =>
        cases es with
        | nil =>
          rw [show dumpsVal (Json.arr []) ++ rest = '[' :: ']' :: rest from rfl,
            parseVal_cons]
          simp +decide
        | cons e es =>
          have hsz' : (dumpsVal e).length + (dumpsArrRest es).length + 2 ≤ F := by
            simp [dumpsVal] at hsz
            omega
          obtain ⟨c0, cs0, hc0, hne0, _⟩ := dumpsVal_head e
          have hitems : parseItems F (c0 :: (cs0 ++ (dumpsArrRest es ++ ']' :: rest)))
              = some (e :: es, rest) := by
            rw [show c0 :: (cs0 ++ (dumpsArrRest es ++ ']' :: rest))
                = dumpsVal e ++ (dumpsArrRest es ++ ']' :: rest) from by
              rw [hc0, List.cons_append]]
            exact ih2 e es rest hsz'
          rw [show dumpsVal (Json.arr (e :: es)) ++ rest
              = '[' :: c0 :: (cs0 ++ (dumpsArrRest es ++ ']' :: rest)) from by
            simp [dumpsVal, hc0], parseVal_cons]
          simp +decide [hne0, hitems]
      | obj fs =>
        cases fs with
        | nil =>
          rw [show dumpsVal (Json.obj []) ++ rest = '\x7b' :: '\x7d' :: rest from rfl,
            parseVal_cons]
          simp +decide
        | cons f fs =>
          obtain ⟨k, v⟩ := f
          have hsz' : (escapeChars k).length + (dumpsVal v).length + (dumpsObjRest fs).length + 4
              ≤ F := by
            simp [dumpsVal] at hsz
            omega
          have hfields := ih3 k v fs rest hsz'
          rw [show dumpsVal (Json.obj ((k, v) :: fs)) ++ rest
              = '\x7b' :: '"' ::
                (escapeChars k ++ '"' :: ':' :: (dumpsVal v ++ (dumpsObjRest fs ++ '\x7d' :: rest)))
              from by simp [dumpsVal], parseVal_cons]
          simp +decide [hfields]
    · -- parseItems on serialized elements
      intro e es rest hsz
      have hszv : (dumpsVal e).length < F := by omega
      have hv := ih1 e (dumpsArrRest es ++ ']' :: rest) hszv (headNoDigit_arrRest es rest)
      cases es with
      | nil =>
        rw [parseItems_succ]
        simp only [dumpsArrRest, List.nil_append] at hv ⊢
        simp +decide [hv]
      | cons e2 es' =>
        have hsz2 : (dumpsVal e2).length + (dumpsArrRest es').length + 2 ≤ F := by
          simp [dumpsArrRest] at hsz
          omega
        have hnext := ih2 e2 es' rest hsz2
        rw [parseItems_succ]
        simp only [dumpsArrRest, List.cons_append, List.append_assoc] at hv ⊢
        simp +decide [hv, hnext]
    · -- parseFields on serialized fields
      intro k v fs rest hsz
      have hszv : (dumpsVal v).length < F := by omega
      have hval := ih1 v (dumpsObjRest fs ++ '\x7d' :: rest) hszv (headNoDigit_objRest fs rest)
      have hkey := parseStringBody_escape k (':' :: (dumpsVal v ++ (dumpsObjRest fs ++ '\x7d' :: rest)))
      cases fs with
      | nil =>
        rw [parseFields_cons]
        simp only [dumpsObjRest, List.nil_append] at hval hkey ⊢
        simp +decide [hkey, hval]
      | cons f fs' =>
        obtain ⟨k2, v2⟩ := f
        have hsz2 : (escapeChars k2).length + (dumpsVal v2).length + (dumpsObjRest fs').length + 4
            ≤ F := by
          simp [dumpsObjRest] at hsz
          omega
        have hnext := ih3 k2 v2 fs' rest hsz2
        rw [parseFields_cons]
        simp only [dumpsObjRest, List.cons_append, List.append_assoc] at hval hkey ⊢
        simp +decide [hkey, hval, hnext]

theorem loads_dumps (j : Json) : loads (dumpsVal j) = some j := by
  unfold loads
  have h := (parse_dumps ((dumpsVal j).length + 1)).1 j [] (by omega) rfl
  rw [List.append_nil] at h
  rw [h]

/-! ## Framing codec lemmas -/

theorem drain_zero (buffer : List Char) (expected : Option Nat) :
    drain 0 buffer expected = ((buffer, expected), []) := rfl

theorem drain_succ_none (fuel : Nat) (buffer : List Char) :
    drain (fuel + 1) buffer none =
      (match findCrlfCrlf buffer with
      | none => ((buffer, none), [])
      | some header_end =>
        match parseHeaderBlock (buffer.take header_end) with
        | none => drain fuel (buffer.drop (header_end + 4)) none
        | some content_length =>
          drain fuel (buffer.drop (header_end + 4)) (some (max 0 content_length).toNat)) := rfl

theorem drain_succ_some (fuel : Nat) (buffer : List Char) (expected : Nat) :
    drain (fuel + 1) buffer (some expected) =
      (if buffer.length < expected then ((buffer, some expected), [])
      else
        ((drain fuel (buffer.drop expected) none).1,
          (match loads (buffer.take expected) with
            | some message => DecodedItem.message message
            | none => DecodedItem.parseError) ::
          (drain fuel (buffer.drop expected) none).2)) := rfl

theorem drain_none_nil (fuel : Nat) : drain fuel [] none = (([], none), []) := by
  cases fuel with
  | zero => rfl
  | succ f => rfl

theorem findCrlfCrlf_le : ∀ {l : List Char} {i : Nat}, findCrlfCrlf l = some i →
    i + 4 ≤ l.length := by
  intro l
  induction l with
  | nil => intro i h; simp [findCrlfCrlf] at h
  | cons c rest ih =>
    intro i h
    simp only [findCrlfCrlf] at h
    by_cases hs : startsWithCrlfCrlf (c :: rest)
    · rw [if_pos hs] at h
      simp only [startsWithCrlfCrlf, decide_eq_true_eq] at hs
      have hlen := congrArg List.length hs
      simp only [List.length_take, List.length_cons] at hlen
      have hi : i = 0 := by injection h with h'; omega
      subst hi
      simp only [List.length_cons]
      omega
    · rw [if_neg hs] at h
      rcases Option.map_eq_some'.1 h with ⟨j, hj, hij⟩
      have := ih hj
      subst hij
      simp only [List.length_cons]
      omega

theorem fuelFor_pos (buffer : List Char) (expected : Option Nat) :
    1 ≤ fuelFor buffer expected := by
  cases expected <;> simp only [fuelFor] <;> omega

theorem drain_fuel_eq : ∀ (n : Nat) (buffer : List Char) (expected : Option Nat) (f g : Nat),
    fuelFor buffer expected ≤ f → fuelFor buffer expected ≤ g → f ≤ n → g ≤ n →
    drain f buffer expected = drain g buffer expected := by
  intro n
  induction n with
  | zero =>
    intro buffer expected f g hf _ hfn _
    have := fuelFor_pos buffer expected
    omega
  | succ n ih =>
    intro buffer expected f g hf hg hfn hgn
    have hpos := fuelFor_pos buffer expected
    cases f with
    | zero => omega
    | succ f' =>
      cases g with
      | zero => omega
      | succ g' =>
        cases expected with
        | none =>
          rw [drain_succ_none, drain_succ_none]
          cases hfind : findCrlfCrlf buffer with
          | none => rfl
          | some i =>
            have hle := findCrlfCrlf_le hfind
            have hll : (buffer.drop (i + 4)).length = buffer.length - (i + 4) :=
              List.length_drop _ _
            dsimp only
            cases hph : parseHeaderBlock (buffer.take i) with
            | none =>
              dsimp only
              apply ih
              · simp only [fuelFor] at hf ⊢; omega
              · simp only [fuelFor] at hg ⊢; omega
              · omega
              · omega
            | some cl =>
              dsimp only
              apply ih
              · simp only [fuelFor] at hf ⊢; omega
              · simp only [fuelFor] at hg ⊢; omega
              · omega
              · omega
        | some e =>
          rw [drain_succ_some, drain_succ_some]
          by_cases hwait : buffer.length < e
          · rw [if_pos hwait, if_pos hwait]
          · rw [if_neg hwait, if_neg hwait]
            have hll : (buffer.drop e).length = buffer.length - e := List.length_drop _ _
            have heq : drain f' (buffer.drop e) none = drain g' (buffer.drop e) none := by
              apply ih
              · simp only [fuelFor] at hf ⊢; omega
              · simp only [fuelFor] at hg ⊢; omega
              · omega
              · omega
            rw [heq]

theorem drain_eq_runDrain {f : Nat} {buffer : List Char} {expected : Option Nat}
    (h : fuelFor buffer expected ≤ f) :
    drain f buffer expected = runDrain buffer expected :=
  drain_fuel_eq (max f (fuelFor buffer expected)) buffer expected f
    (fuelFor buffer expected) h le_rfl (le_max_left _ _) (le_max_right _ _)

theorem runDrain_nil : runDrain [] none = (([], none), []) := rfl

theorem runDrain_none_halt {buffer : List Char} (h : findCrlfCrlf buffer = none) :
    runDrain buffer none = ((buffer, none), []) := by
  have h1 : runDrain buffer none = drain (2 * buffer.length + 1) buffer none := rfl
  rw [h1, drain_succ_none, h]

theorem runDrain_none_skip {buffer : List Char} {i : Nat} (hfind : findCrlfCrlf buffer = some i)
    (hph : parseHeaderBlock (buffer.take i) = none) :
    runDrain buffer none = runDrain (buffer.drop (i + 4)) none := by
  have hle := findCrlfCrlf_le hfind
  have h1 : runDrain buffer none = drain (2 * buffer.length + 1) buffer none := rfl
  rw [h1, drain_succ_none, hfind]
  dsimp only
  rw [hph]
  exact drain_eq_runDrain (by simp only [fuelFor, List.length_drop]; omega)

theorem runDrain_none_found {buffer : List Char} {i : Nat} {cl : Int}
    (hfind : findCrlfCrlf buffer = some i)
    (hph : parseHeaderBlock (buffer.take i) = some cl) :
    runDrain buffer none = runDrain (buffer.drop (i + 4)) (some (max 0 cl).toNat) := by
  have hle := findCrlfCrlf_le hfind
  have h1 : runDrain buffer none = drain (2 * buffer.length + 1) buffer none := rfl
  rw [h1, drain_succ_none, hfind]
  dsimp only
  rw [hph]
  exact drain_eq_runDrain (by simp only [fuelFor, List.length_drop]; omega)

theorem runDrain_some_wait {buffer : List Char} {e : Nat} (h : buffer.length < e) :
    runDrain buffer (some e) = ((buffer, some e), []) := by
  have h1 : runDrain buffer (some e) = drain ((2 * buffer.length + 1) + 1) buffer (some e) := rfl
  rw [h1, drain_succ_some, if_pos h]

theorem runDrain_some_deliver {buffer : List Char} {e : Nat} (h : e ≤ buffer.length) :
    runDrain buffer (some e) =
      ((runDrain (buffer.drop e) none).1,
        (match loads (buffer.take e) with
          | some message => DecodedItem.message message
          | none => DecodedItem.parseError) :: (runDrain (buffer.drop e) none).2) := by
  have h1 : runDrain buffer (some e) = drain ((2 * buffer.length + 1) + 1) buffer (some e) := rfl
  rw [h1, drain_succ_some, if_neg (by omega)]
  rw [drain_eq_runDrain (show fuelFor (buffer.drop e) none ≤ 2 * buffer.length + 1 by
    simp only [fuelFor, List.length_drop]; omega)]

theorem asciiDecodeReplace_eq_self {l : List Char} (h : ∀ c ∈ l, c.toNat < 128) :
    asciiDecodeReplace l = l := by
  unfold asciiDecodeReplace
  induction l with
  | nil => rfl
  | cons c rest ih =>
    rw [List.map_cons, if_pos (h c (List.mem_cons_self c rest)),
      ih (fun x hx => h x (List.mem_cons_of_mem c hx))]

theorem splitCrlf_no_cr : ∀ l : List Char, (∀ c ∈ l, c ≠ '\r') → splitCrlf l = [l] := by
  intro l
  induction l with
  | nil => intro _; rfl
  | cons c rest ih =>
    intro h
    have hc : c ≠ '\r' := h c (List.mem_cons_self c rest)
    have hrest := ih (fun x hx => h x (List.mem_cons_of_mem c hx))
    cases rest with
    | nil =>
      rw [splitCrlf.eq_def]
      simp [hc, consHead, splitCrlf]
    | cons c2 rest2 =>
      rw [splitCrlf.eq_def]
      simp only [if_neg hc]
      rw [hrest]
      rfl

theorem intRepr_chars {n : Int} {c : Char} (h : c ∈ intRepr n) :
    c = '-' ∨ isDigitChar c = true := by
  unfold intRepr at h
  by_cases hn : n < 0
  · rw [if_pos hn] at h
    rcases List.mem_cons.1 h with h | h
    · exact Or.inl h
    · exact Or.inr (natRepr_all_digits _ c h)
  · rw [if_neg hn] at h
    exact Or.inr (natRepr_all_digits _ c h)

theorem intRepr_ascii {n : Int} {c : Char} (h : c ∈ intRepr n) : c.toNat < 128 := by
  rcases intRepr_chars h with h | h
  · subst h; decide
  · have := digit_toNat_bounds h
    omega

theorem intRepr_no_cr {n : Int} {c : Char} (h : c ∈ intRepr n) : c ≠ '\r' := by
  rcases intRepr_chars h with h | h
  · subst h; decide
  · exact char_ne_of_digit_out h (by decide)

theorem pyLower_header :
    pyLower ("Content-Length: ".data) = "content-length: ".data := by decide

theorem isContentLengthLine_header (X : List Char) :
    isContentLengthLine ("Content-Length: ".data ++ X) = true := by
  unfold isContentLengthLine pyLower
  rw [List.map_append]
  rw [show (("Content-Length: ".data).map lowerChar : List Char) = "content-length: ".data
    from pyLower_header]
  rw [show ("content-length: ".data ++ X.map lowerChar : List Char)
      = "content-length:".data ++ (' ' :: X.map lowerChar) from rfl]
  exact isPrefixOf_append_self _ _

theorem afterFirstColon_header (X : List Char) :
    afterFirstColon ("Content-Length: ".data ++ X) = ' ' :: X := by
  show afterFirstColon ('C' :: 'o' :: 'n' :: 't' :: 'e' :: 'n' :: 't' :: '-' :: 'L' :: 'e'
    :: 'n' :: 'g' :: 't' :: 'h' :: ':' :: ' ' :: X) = ' ' :: X
  simp +decide [afterFirstColon]

theorem pyIntOfString_cons_space (l : List Char) :
    pyIntOfString (' ' :: l) = pyIntOfString l := by
  unfold pyIntOfString pyStrip
  rw [List.dropWhile_cons]
  norm_num [isPySpace]

theorem parseHeaderBlock_header (n : Int) :
    parseHeaderBlock ("Content-Length: ".data ++ intRepr n) = some n := by
  unfold parseHeaderBlock
  have hascii : asciiDecodeReplace ("Content-Length: ".data ++ intRepr n)
      = "Content-Length: ".data ++ intRepr n := by
    apply asciiDecodeReplace_eq_self
    intro c hc
    rcases List.mem_append.1 hc with h | h
    · exact (by decide : ∀ c ∈ "Content-Length: ".data, c.toNat < 128) c h
    · exact intRepr_ascii h
  have hnocr : ∀ c ∈ "Content-Length: ".data ++ intRepr n, c ≠ '\r' := by
    intro c hc
    rcases List.mem_append.1 hc with h | h
    · exact (by decide : ∀ c ∈ "Content-Length: ".data, c ≠ '\x0d') c h
    · exact intRepr_no_cr h
  rw [hascii, splitCrlf_no_cr _ hnocr]
  unfold headerContentLength
  rw [if_pos (isContentLengthLine_header (intRepr n)), afterFirstColon_header,
    pyIntOfString_cons_space, pyIntOfString_intRepr]

theorem parseHeaderBlock_header_nat (n : Nat) :
    parseHeaderBlock ("Content-Length: ".data ++ natRepr n) = some (n : Int) := by
  have h := parseHeaderBlock_header (n : Int)
  rw [intRepr_nonneg _ (by omega), Int.toNat_natCast] at h
  exact h

theorem startsWithCrlfCrlf_cons_ne {c : Char} (hc : c ≠ '\r') (l : List Char) :
    startsWithCrlfCrlf (c :: l) = false := by
  unfold startsWithCrlfCrlf
  simp [List.take_succ_cons, hc]

theorem findCrlfCrlf_no_cr_prefix : ∀ (a : List Char), (∀ c ∈ a, c ≠ '\r') →
    ∀ b : List Char,
    findCrlfCrlf (a ++ '\r' :: '\n' :: '\r' :: '\n' :: b) = some a.length := by
  intro a
  induction a with
  | nil =>
    intro _ b
    rw [List.nil_append, findCrlfCrlf.eq_def]
    simp [startsWithCrlfCrlf]
  | cons c a ih =>
    intro h b
    have hc : c ≠ '\r' := h c (List.mem_cons_self c a)
    rw [List.cons_append, findCrlfCrlf.eq_def]
    simp only [startsWithCrlfCrlf_cons_ne hc, Bool.false_eq_true, if_false,
      ih (fun x hx => h x (List.mem_cons_of_mem c hx)) b, Option.map_some', List.length_cons]

theorem findCrlfCrlf_append_of_some : ∀ {a : List Char} {i : Nat},
    findCrlfCrlf a = some i → ∀ b : List Char, findCrlfCrlf (a ++ b) = some i := by
  intro a
  induction a with
  | nil => intro i h; simp [findCrlfCrlf] at h
  | cons c rest ih =>
    intro i h b
    have hlen := findCrlfCrlf_le h
    simp only [findCrlfCrlf] at h
    rw [List.cons_append, findCrlfCrlf.eq_def]
    dsimp only
    by_cases hs : startsWithCrlfCrlf (c :: rest)
    · rw [if_pos hs] at h
      have hs' : startsWithCrlfCrlf (c :: (rest ++ b)) = true := by
        simp only [startsWithCrlfCrlf, decide_eq_true_eq] at hs ⊢
        rw [show (c :: (rest ++ b) : List Char) = (c :: rest) ++ b from rfl,
          List.take_append_of_le_length (by simp at hlen ⊢; omega)]
        exact hs
      simp only [hs', if_true]
      exact h
    · have hs0 : startsWithCrlfCrlf (c :: rest) = false := by
        simpa using hs
      rw [if_neg hs] at h
      rcases Option.map_eq_some'.1 h with ⟨j, hj, hij⟩
      have hjlen := findCrlfCrlf_le hj
      have hs' : startsWithCrlfCrlf (c :: (rest ++ b)) = false := by
        unfold startsWithCrlfCrlf at hs0 ⊢
        rw [show (c :: (rest ++ b) : List Char) = (c :: rest) ++ b from rfl,
          List.take_append_of_le_length (by simp; omega)]
        exact hs0
      rw [hs']
      simp only [Bool.false_eq_true, if_false]
      rw [ih hj b, Option.map_some', hij]

theorem header_no_cr (n : Nat) :
    ∀ c ∈ ("Content-Length: ".data) ++ natRepr n, c ≠ '\r' := by
  intro c hc
  rcases List.mem_append.1 hc with h | h
  · exact (by decide : ∀ c ∈ "Content-Length: ".data, c ≠ '\x0d') c h
  · exact char_ne_of_digit_out (natRepr_all_digits _ c h) (by decide)

theorem encode_message_shape (j : Json) :
    encode_message j = (("Content-Length: ".data) ++ natRepr (dumpsVal j).length)
      ++ ('\r' :: '\n' :: '\r' :: '\n' :: dumpsVal j) := by
  unfold encode_message
  simp

theorem runDrain_message_prefix (j : Json) (tail : List Char) :
    runDrain (encode_message j ++ tail) none =
      ((runDrain tail none).1, DecodedItem.message j :: (runDrain tail none).2) := by
  rw [encode_message_shape]
  set H : List Char := ("Content-Length: ".data) ++ natRepr (dumpsVal j).length with hH
  rw [List.append_assoc, List.cons_append, List.cons_append, List.cons_append,
    List.cons_append]
  have hfind := findCrlfCrlf_no_cr_prefix H (header_no_cr _) (dumpsVal j ++ tail)
  have htake : (H ++ ('\r' :: '\n' :: '\r' :: '\n' :: (dumpsVal j ++ tail))).take H.length = H :=
    List.take_left _ _
  have hph : parseHeaderBlock
      ((H ++ ('\r' :: '\n' :: '\r' :: '\n' :: (dumpsVal j ++ tail))).take H.length)
      = some ((dumpsVal j).length : Int) := by
    rw [htake, hH]
    exact parseHeaderBlock_header_nat _
  have hdrop : (H ++ ('\r' :: '\n' :: '\r' :: '\n' :: (dumpsVal j ++ tail))).drop (H.length + 4)
      = dumpsVal j ++ tail := by
    rw [List.drop_append]
    rfl
  rw [runDrain_none_found hfind hph, hdrop]
  have hexp : (max 0 (((dumpsVal j).length : Nat) : Int)).toNat = (dumpsVal j).length := by
    rw [max_eq_right (by positivity), Int.toNat_natCast]
  rw [hexp]
  have hlen : (dumpsVal j).length ≤ (dumpsVal j ++ tail).length := by
    simp
  rw [runDrain_some_deliver hlen, List.take_left' rfl, List.drop_left' rfl, loads_dumps]

theorem runDrain_encode (j : Json) :
    runDrain (encode_message j) none = (([], none), [DecodedItem.message j]) := by
  have h := runDrain_message_prefix j []
  rw [List.append_nil, runDrain_nil] at h
  exact h

theorem runDrain_extend : ∀ (n : Nat) (b : List Char) (e : Option Nat) (extra : List Char),
    fuelFor b e ≤ n →
    runDrain (b ++ extra) e =
      ((runDrain ((runDrain b e).1.1 ++ extra) (runDrain b e).1.2).1,
        (runDrain b e).2 ++ (runDrain ((runDrain b e).1.1 ++ extra) (runDrain b e).1.2).2) := by
  intro n
  induction n with
  | zero =>
    intro b e extra h
    have := fuelFor_pos b e
    omega
  | succ n ih =>
    intro b e extra hfe
    cases e with
    | none =>
      cases hfind : findCrlfCrlf b with
      | none =>
        rw [runDrain_none_halt hfind]
        simp
      | some i =>
        have hle := findCrlfCrlf_le hfind
        have hfind' := findCrlfCrlf_append_of_some hfind extra
        have htake : (b ++ extra).take i = b.take i :=
          List.take_append_of_le_length (by omega)
        have hdrop : (b ++ extra).drop (i + 4) = b.drop (i + 4) ++ extra :=
          List.drop_append_of_le_length (by omega)
        cases hph : parseHeaderBlock (b.take i) with
        | none =>
          rw [runDrain_none_skip hfind hph,
            runDrain_none_skip hfind' (by rw [htake]; exact hph), hdrop]
          exact ih _ _ extra (by
            simp only [fuelFor, List.length_drop] at hfe ⊢
            omega)
        | some cl =>
          rw [runDrain_none_found hfind hph,
            runDrain_none_found hfind' (by rw [htake]; exact hph), hdrop]
          exact ih _ _ extra (by
            simp only [fuelFor, List.length_drop] at hfe ⊢
            omega)
    | some exp =>
      by_cases hwait : b.length < exp
      · rw [runDrain_some_wait hwait]
        simp
      · have hexp : exp ≤ b.length := by omega
        have htake : (b ++ extra).take exp = b.take exp :=
          List.take_append_of_le_length hexp
        have hexp' : exp ≤ (b ++ extra).length := by
          simp only [List.length_append]
          omega
        have hdrop : (b ++ extra).drop exp = b.drop exp ++ extra :=
          List.drop_append_of_le_length hexp
        rw [runDrain_some_deliver hexp, runDrain_some_deliver hexp', htake, hdrop]
        rw [ih (b.drop exp) none extra (by
          simp only [fuelFor, List.length_drop] at hfe ⊢
          omega)]
        dsimp only
        rw [List.cons_append]

theorem runDrain_append (b : List Char) (e : Option Nat) (extra : List Char) :
    runDrain (b ++ extra) e =
      ((runDrain ((runDrain b e).1.1 ++ extra) (runDrain b e).1.2).1,
        (runDrain b e).2 ++ (runDrain ((runDrain b e).1.1 ++ extra) (runDrain b e).1.2).2) :=
  runDrain_extend (fuelFor b e) b e extra le_rfl

theorem runDrain_idem (b : List Char) (e : Option Nat) :
    runDrain (runDrain b e).1.1 (runDrain b e).1.2 = ((runDrain b e).1, []) := by
  have h := runDrain_append b e []
  rw [List.append_nil, List.append_nil] at h
  have h1 := congrArg Prod.fst h
  have h2 := congrArg Prod.snd h
  simp only at h1 h2
  have h3 : (runDrain (runDrain b e).1.1 (runDrain b e).1.2).2 = [] := by
    have := congrArg List.length h2
    simp only [List.length_append] at this
    exact List.eq_nil_of_length_eq_zero (by omega)
  exact Prod.ext h1.symm h3

theorem feedMany_join : ∀ (chunks : List (List Char)) (st : List Char × Option Nat),
    runDrain st.1 st.2 = (st, []) →
    feedMany st chunks = runDrain (st.1 ++ chunks.flatten) st.2 := by
  intro chunks
  induction chunks with
  | nil =>
    intro st hq
    simp only [feedMany, List.flatten_nil, List.append_nil, hq]
  | cons c rest ih =>
    intro st hq
    have hidem := runDrain_idem (st.1 ++ c) st.2
    have hih := ih (runDrain (st.1 ++ c) st.2).1 hidem
    simp only [feedMany, feed]
    rw [hih]
    rw [show st.1 ++ (c :: rest).flatten = (st.1 ++ c) ++ rest.flatten from by
      simp [List.flatten_cons, List.append_assoc]]
    rw [runDrain_append (st.1 ++ c) st.2 rest.flatten]

theorem loads_nil : loads [] = none := rfl

theorem runDrain_negative_header (m : Int) (hm : m < 0) (j : Json) :
    runDrain ((("Content-Length: ".data) ++ intRepr m)
        ++ ('\r' :: '\n' :: '\r' :: '\n' :: encode_message j)) none
      = (([], none), [DecodedItem.parseError, DecodedItem.message j]) := by
  set H : List Char := ("Content-Length: ".data) ++ intRepr m with hH
  have hnocr : ∀ c ∈ H, c ≠ '\r' := by
    intro c hc
    rcases List.mem_append.1 hc with h | h
    · exact (by decide : ∀ c ∈ "Content-Length: ".data, c ≠ '\x0d') c h
    · exact intRepr_no_cr h
  have hfind := findCrlfCrlf_no_cr_prefix H hnocr (encode_message j)
  have htake : (H ++ ('\r' :: '\n' :: '\r' :: '\n' :: encode_message j)).take H.length = H :=
    List.take_left _ _
  have hph : parseHeaderBlock
      ((H ++ ('\r' :: '\n' :: '\r' :: '\n' :: encode_message j)).take H.length) = some m := by
    rw [htake, hH]
    exact parseHeaderBlock_header m
  have hdrop : (H ++ ('\r' :: '\n' :: '\r' :: '\n' :: encode_message j)).drop (H.length + 4)
      = encode_message j := by
    rw [List.drop_append]
    rfl
  rw [runDrain_none_found hfind hph, hdrop]
  have hexp : (max (0 : Int) m).toNat = 0 := by
    rw [max_eq_left (by omega : m ≤ (0 : Int))]
    rfl
  rw [hexp]
  rw [runDrain_some_deliver (Nat.zero_le _), List.take_zero, List.drop_zero, loads_nil,
    runDrain_encode]

/-! ## Helpers for the claim theorems -/

theorem dictSet_ne_nil {β : Type} (k : String) (v : β) (d : List (String × β)) :
    dictSet k v d ≠ [] := by
  cases d with
  | nil => simp [dictSet]
  | cons kv rest =>
    obtain ⟨k', v'⟩ := kv
    unfold dictSet
    by_cases h : k' = k
    · simp [h]
    · simp [h]

theorem foldl_dictSet_ne_nil (env : Env) :
    ∀ (calls : List (String × String × String)) (d : List (String × String × String)),
      d ≠ [] →
      calls.foldl (fun d c => dictSet (path_to_uri env (env.absPath c.1)) (c.2.1, c.2.2) d) d
        ≠ [] := by
  intro calls
  induction calls with
  | nil => intro d h; exact h
  | cons c rest ih =>
    intro d h
    simp only [List.foldl_cons]
    exact ih _ (dictSet_ne_nil _ _ d)

theorem mem_foldl_firstOcc :
    ∀ (l : List String) (acc : List String) (x : String),
      x ∈ l.foldl (fun acc u => if u ∈ acc then acc else acc ++ [u]) acc →
      x ∈ acc ∨ x ∈ l := by
  intro l
  induction l with
  | nil => intro acc x h; exact Or.inl h
  | cons u rest ih =>
    intro acc x h
    simp only [List.foldl_cons] at h
    rcases ih _ x h with h1 | h1
    · by_cases hu : u ∈ acc
      · rw [if_pos hu] at h1
        exact Or.inl h1
      · rw [if_neg hu] at h1
        rcases List.mem_append.1 h1 with h2 | h2
        · exact Or.inl h2
        · simp only [List.mem_singleton] at h2
          subst h2
          exact Or.inr (List.mem_cons_self ..)
    · exact Or.inr (List.mem_cons_of_mem _ h1)

theorem mem_firstOccurrenceOrder {x : String} {l : List String}
    (h : x ∈ firstOccurrenceOrder l) : x ∈ l := by
  unfold firstOccurrenceOrder at h
  rcases mem_foldl_firstOcc l [] x h with h1 | h1
  · simp at h1
  · exact h1

/-! ## The claims -/

/-- C1 (corrected): documents queued by `open_or_change_document` while the
connection is not ready are flushed, once the initialize handshake completes,
in the order in which they were FIRST queued — a CPython dict update keeps
the insertion position of an existing key, so the flush order is the
pending-dict insertion order, not the last-modified order the spec states —
each distinct URI is synced exactly once, and each flushed `didOpen` carries
the LAST-queued `(text, languageId)` for its URI. -/
theorem C1_pending_sync_flush_order (env : Env)
    (habs : ∀ p, env.absPath (env.absPath p) = env.absPath p)
    (st0 : ClientState) (calls : List (String × String × String))
    (hready : st0.isReady = false) (hrun : st0.processRunning = true)
    (hpend : st0.pendingDocumentSync = []) (hvers : st0.openedDocumentVersions = []) :
    didOpenUris (on_initialize_success env (openChangeCalls env st0 calls)).sent
        = didOpenUris st0.sent ++ firstOccurrenceOrder (queuedUris env calls)
      ∧ (firstOccurrenceOrder (queuedUris env calls)).Nodup
      ∧ (∀ u tx lg,
          SentMessage.didOpen u 1 tx lg
              ∈ (on_initialize_success env (openChangeCalls env st0 calls)).sent →
          SentMessage.didOpen u 1 tx lg ∈ st0.sent
            ∨ lastQueuedValue env calls u = some (tx, lg)) := by
  have hq := openChangeCalls_not_ready env calls st0 hready
  rw [hpend] at hq
  have hkeys : ((calls.foldl
        (fun d c => dictSet (path_to_uri env (env.absPath c.1)) (c.2.1, c.2.2) d)
        []).map Prod.fst)
      = firstOccurrenceOrder (queuedUris env calls) := by
    rw [pendingKeys_foldl, firstOccurrence_queued]
    rfl
  have hnodupD : ((calls.foldl
        (fun d c => dictSet (path_to_uri env (env.absPath c.1)) (c.2.1, c.2.2) d)
        []).map Prod.fst).Nodup :=
    pendingNodup_foldl env calls [] (by simp)
  have hnodup : (firstOccurrenceOrder (queuedUris env calls)).Nodup := hkeys ▸ hnodupD
  have hsent : (on_initialize_success env (openChangeCalls env st0 calls)).sent
      = (st0.sent ++ [SentMessage.notification "initialized"])
        ++ ((calls.foldl
              (fun d c => dictSet (path_to_uri env (env.absPath c.1)) (c.2.1, c.2.2) d)
              []).map fun c => SentMessage.didOpen c.1 1 c.2.1 c.2.2) := by
    unfold on_initialize_success send_notification
    rw [hq]
    rw [show send_message
          { st0 with pendingDocumentSync :=
              (calls.foldl
                (fun d c => dictSet (path_to_uri env (env.absPath c.1)) (c.2.1, c.2.2) d) []) }
          (.notification "initialized")
        = { st0 with
            pendingDocumentSync :=
              (calls.foldl
                (fun d c => dictSet (path_to_uri env (env.absPath c.1)) (c.2.1, c.2.2) d) [])
            sent := st0.sent ++ [.notification "initialized"] } from by
      unfold send_message
      rw [if_pos (by simpa using hrun)]]
    cases calls with
    | nil =>
      unfold flush_pending_document_sync
      rw [if_pos (by right; rfl)]
      simp
    | cons c0 rest =>
      have hDne : (((c0 :: rest).foldl
          (fun d c => dictSet (path_to_uri env (env.absPath c.1)) (c.2.1, c.2.2) d)
          []) : List (String × String × String)) ≠ [] := by
        simp only [List.foldl_cons]
        exact foldl_dictSet_ne_nil env rest _ (dictSet_ne_nil _ _ [])
      unfold flush_pending_document_sync
      rw [if_neg (fun hcon => by
        rcases hcon with h | h
        · exact h rfl
        · exact hDne h)]
      dsimp only
      rw [flushLoop_fresh env habs _
        { st0 with
          isReady := true
          pendingDocumentSync := []
          sent := st0.sent ++ [SentMessage.notification "initialized"] }
        rfl hrun ?hrep ?hfresh hnodupD]
      case hrep =>
        intro kv hkv
        have h1 : kv.1 ∈ ((c0 :: rest).foldl
            (fun d c => dictSet (path_to_uri env (env.absPath c.1)) (c.2.1, c.2.2) d)
            []).map Prod.fst := List.mem_map_of_mem Prod.fst hkv
        rw [hkeys] at h1
        have h2 := mem_firstOccurrenceOrder h1
        unfold queuedUris at h2
        rcases List.mem_map.1 h2 with ⟨c, _, hc⟩
        exact ⟨c.1, hc.symm⟩
      case hfresh =>
        intro kv _
        show dictGet kv.1 st0.openedDocumentVersions = none
        rw [hvers]
        rfl
  refine ⟨?_, hnodup, ?_⟩
  · rw [hsent, didOpenUris_append, didOpenUris_append, didOpenUris_map_didOpen, hkeys]
    simp [didOpenUris]
  · intro u tx lg hm
    rw [hsent] at hm
    rcases List.mem_append.1 hm with hm | hm
    · rcases List.mem_append.1 hm with hm | hm
      · exact Or.inl hm
      · simp at hm
    · right
      rcases List.mem_map.1 hm with ⟨⟨a, b, d⟩, hcD, hceq⟩
      injection hceq with ha hv hb hd
      dsimp only at ha hb hd
      rw [ha, hb, hd] at hcD
      have hget : dictGet u (calls.foldl
          (fun d c => dictSet (path_to_uri env (env.absPath c.1)) (c.2.1, c.2.2) d) [])
          = some (tx, lg) :=
        dictGet_of_mem_nodup _ u (tx, lg) hnodupD hcD
      have hpg : dictGet u (calls.foldl
          (fun d c => dictSet (path_to_uri env (env.absPath c.1)) (c.2.1, c.2.2) d) [])
          = lastQueuedValue env calls u := by
        rw [pendingGet_foldl, lastQueuedValue_eq_foldl]
        rfl
      rw [← hpg]
      exact hget

/-- For C1: with the queueing sequence a, b, a the flush opens the documents
in first-queued order `[a, b]`, which differs from the last-modified order
`[b, a]` stated by the spec. -/
theorem C1_counterexample :
    didOpenUris (on_initialize_success idEnv
        (openChangeCalls idEnv freshNotReadyState
          [("a", "t1", "py"), ("b", "t2", "py"), ("a", "t3", "py")])).sent
      ≠ lastModifiedOrder (queuedUris idEnv
          [("a", "t1", "py"), ("b", "t2", "py"), ("a", "t3", "py")]) := by
  decide

/-- Witness for C1 at a concrete environment, client state and call list. -/
theorem C1_witness :
    (∀ p, idEnv.absPath (idEnv.absPath p) = idEnv.absPath p)
    ∧ (didOpenUris (on_initialize_success idEnv
          (openChangeCalls idEnv freshNotReadyState [("a", "t", "py")])).sent
        = didOpenUris freshNotReadyState.sent
          ++ firstOccurrenceOrder (queuedUris idEnv [("a", "t", "py")])
      ∧ (firstOccurrenceOrder (queuedUris idEnv [("a", "t", "py")])).Nodup
      ∧ (∀ u tx lg,
          SentMessage.didOpen u 1 tx lg
              ∈ (on_initialize_success idEnv
                  (openChangeCalls idEnv freshNotReadyState [("a", "t", "py")])).sent →
          SentMessage.didOpen u 1 tx lg ∈ freshNotReadyState.sent
            ∨ lastQueuedValue idEnv [("a", "t", "py")] u = some (tx, lg))) :=
  ⟨fun _ => rfl,
    C1_pending_sync_flush_order idEnv (fun _ => rfl) freshNotReadyState
      [("a", "t", "py")] rfl rfl rfl rfl⟩

/-- C2 (corrected): the per-file edits are sorted in DESCENDING — but not
strictly descending, since `sorted(..., reverse=True)` keeps equal keys —
order of `(start.line, start.character)`; an edit whose computed end offset
precedes its start offset has the two offsets swapped before splicing; and a
splice leaves unchanged the mapped offset of any position that falls
strictly BEFORE the splice start (offsets at or beyond it, which character
clamping can produce even for positions that compare as earlier, may
change — see the counterexample). -/
theorem C2_descending_edits_and_offset_stability (edits : List Json)
    (content repl : List Char) (s e nl nc : Nat)
    (hse : s ≤ e) (helen : e ≤ content.length)
    (hpos : textPosCore content nl nc < s) :
    (sort_text_edits_descending edits).Perm edits
    ∧ (sort_text_edits_descending edits).Pairwise
        (fun a b => keyLt (editSortKey a) (editSortKey b) = false)
    ∧ (∀ (c0 : List Char) (edit : Json),
        applyOneEdit c0 edit =
          match rangeStartEnd edit with
          | none => (c0, false)
          | some (start_line, start_character, end_line, end_character) =>
            (spliceAt c0
              (min (text_position_from_lsp c0 start_line start_character)
                (text_position_from_lsp c0 end_line end_character))
              (max (text_position_from_lsp c0 start_line start_character)
                (text_position_from_lsp c0 end_line end_character))
              (newTextOf edit), true))
    ∧ textPosCore (spliceAt content s e repl) nl nc = textPosCore content nl nc :=
  ⟨sort_text_edits_descending_perm edits,
    sort_text_edits_descending_pairwise edits,
    fun c0 edit => applyOneEdit_eq_splice c0 edit,
    textPosCore_spliceAt_stable content repl s e nl nc hse helen hpos⟩

/-- For C2: applying the edit at position `(0, 10)` of the two-character
document `"ab"` (its clamped offset is 2) changes the offset subsequently
computed for the EARLIER document position `(0, 5)` from 2 to 5, refuting
"applying an edit never changes the offsets computed for edits at earlier
document positions". -/
theorem C2_counterexample :
    text_position_from_lsp
        (applyOneEdit ("ab".data) (sampleEdit 0 10 0 10 ("xyz".data))).1 0 5
      ≠ text_position_from_lsp ("ab".data) 0 5 := by
  decide

/-- Witness for C2 at a concrete edit list, content and splice. -/
theorem C2_witness :
    (1 ≤ 1 ∧ 1 ≤ ("ab".data).length ∧ textPosCore ("ab".data) 0 0 < 1)
    ∧ ((sort_text_edits_descending [sampleEdit 0 0 0 0 ("z".data)]).Perm
          [sampleEdit 0 0 0 0 ("z".data)]
      ∧ (sort_text_edits_descending [sampleEdit 0 0 0 0 ("z".data)]).Pairwise
          (fun a b => keyLt (editSortKey a) (editSortKey b) = false)
      ∧ (∀ (c0 : List Char) (edit : Json),
          applyOneEdit c0 edit =
            match rangeStartEnd edit with
            | none => (c0, false)
            | some (start_line, start_character, end_line, end_character) =>
              (spliceAt c0
                (min (text_position_from_lsp c0 start_line start_character)
                  (text_position_from_lsp c0 end_line end_character))
                (max (text_position_from_lsp c0 start_line start_character)
                  (text_position_from_lsp c0 end_line end_character))
                (newTextOf edit), true))
      ∧ textPosCore (spliceAt ("ab".data) 1 1 ("q".data)) 0 0
          = textPosCore ("ab".data) 0 0) :=
  ⟨⟨by decide, by decide, by decide⟩,
    C2_descending_edits_and_offset_stability [sampleEdit 0 0 0 0 ("z".data)]
      ("ab".data) ("q".data) 1 1 0 0 (by decide) (by decide) (by decide)⟩

/-- C3 (confirmed): encoding any JSON payload as a framed message
(`Content-Length` header, `\r\n\r\n`, compact JSON body) and draining the
decoder on exactly those bytes yields the payload back with an empty
remaining buffer and no pending expected length. -/
theorem C3_framing_roundtrip (payload : Json) :
    runDrain (encode_message payload) none = (([], none), [DecodedItem.message payload]) :=
  runDrain_encode payload

/-- C4 (confirmed): feeding any chunking of an encoded message into the
decoder one read event at a time — headers and bodies split arbitrarily —
produces the same single decoded message and the same final (empty, idle)
state as feeding the whole byte sequence at once. -/
theorem C4_partial_read_tolerance (payload : Json) (chunks : List (List Char))
    (hsplit : chunks.flatten = encode_message payload) :
    feedMany initDecodeState chunks = (([], none), [DecodedItem.message payload]) := by
  rw [feedMany_join chunks initDecodeState rfl]
  rw [show initDecodeState.1 ++ chunks.flatten = encode_message payload from by
    rw [hsplit]
    rfl]
  exact runDrain_encode payload

/-- Witness for C4: the encoding of `null` split after its fifth byte. -/
theorem C4_witness :
    feedMany initDecodeState
        [(encode_message Json.null).take 5, (encode_message Json.null).drop 5]
      = (([], none), [DecodedItem.message Json.null]) :=
  C4_partial_read_tolerance Json.null
    [(encode_message Json.null).take 5, (encode_message Json.null).drop 5]
    (by simp)

/-- C5 (confirmed): on one connection the requests sent (the initialize
request and then any number of feature requests) carry exactly the ids
`1, 2, ..., N` in order with no repeats, a notification consumes no id, and
after `stop()` followed by a fresh `start_process` (as `ensure_started`
performs) the id counter restarts at 1. -/
theorem C5_request_id_reset (env : Env) (root root2 : String) (st : ClientState)
    (h : env.serverAvailable = true) (reqs : List (String × Nat)) (method : String) :
    requestIds (sendManyRequests (start_process env root st).1 reqs).sent
        = List.range' 1 (reqs.length + 1)
      ∧ (List.range' 1 (reqs.length + 1)).Nodup
      ∧ requestIds (send_notification
            (sendManyRequests (start_process env root st).1 reqs) method).sent
          = requestIds (sendManyRequests (start_process env root st).1 reqs).sent
      ∧ requestIds (start_process env root2
            (stop (sendManyRequests (start_process env root st).1 reqs))).1.sent
          = [1] := by
  have hst1 : (start_process env root st).1 =
      { processRunning := true
        rootPath := some root
        spawnWorkingDir := some root
        isReady := false
        nextRequestId := 2
        pendingRequests := [(1, 0)]
        openedDocumentVersions := []
        pendingDocumentSync := []
        sent := [.request 1 "initialize" (some (path_to_uri env root))] } :=
    congrArg Prod.fst (start_process_eq env root st h)
  obtain ⟨hids, hnext, hrun⟩ := sendManyRequests_spec reqs (start_process env root st).1
    (by rw [hst1])
  have hids' : requestIds (sendManyRequests (start_process env root st).1 reqs).sent
      = List.range' 1 (reqs.length + 1) := by
    rw [hids, hst1]
    rfl
  refine ⟨hids', range'_nodup _ _, (send_notification_ids _ method).1, ?_⟩
  rw [congrArg Prod.fst (start_process_eq env root2 _ h)]
  rfl

/-- Witness for C5 with two feature requests after the initialize. -/
theorem C5_witness :
    idEnv.serverAvailable = true
    ∧ (requestIds (sendManyRequests (start_process idEnv "r" freshNotReadyState).1
          [("m1", 5), ("m2", 6)]).sent
        = List.range' 1 3
      ∧ (List.range' 1 3).Nodup
      ∧ requestIds (send_notification
            (sendManyRequests (start_process idEnv "r" freshNotReadyState).1
              [("m1", 5), ("m2", 6)]) "n").sent
          = requestIds (sendManyRequests (start_process idEnv "r" freshNotReadyState).1
              [("m1", 5), ("m2", 6)]).sent
      ∧ requestIds (start_process idEnv "r2"
            (stop (sendManyRequests (start_process idEnv "r" freshNotReadyState).1
              [("m1", 5), ("m2", 6)]))).1.sent
          = [1]) :=
  ⟨rfl, C5_request_id_reset idEnv "r" "r2" freshNotReadyState rfl [("m1", 5), ("m2", 6)] "n"⟩

/-- C6 (confirmed): opening a document while the connection is ready (no
version recorded yet) sends `didOpen` with version 1, and each of the K
subsequent full-text changes sends `didChange` with the previous version
plus one: the sync notifications for that URI carry exactly the versions
`1, 2, ..., K + 1` in order. -/
theorem C6_version_monotonicity (env : Env) (st : ClientState) (path lang text0 : String)
    (texts : List String)
    (hr : st.isReady = true) (hp : st.processRunning = true)
    (hv : dictGet (path_to_uri env (env.absPath path)) st.openedDocumentVersions = none)
    (hnone : syncVersionsFor (path_to_uri env (env.absPath path)) st.sent = []) :
    syncVersionsFor (path_to_uri env (env.absPath path))
        (openChangeCalls env st
          ((path, text0, lang) :: texts.map fun t => (path, t, lang))).sent
      = List.range' 1 (texts.length + 1) := by
  unfold openChangeCalls
  rw [open_or_change_ready_fresh text0 lang hr hp hv]
  set uri := path_to_uri env (env.absPath path) with huri
  set st1 : ClientState :=
    { st with
      openedDocumentVersions := dictSet uri 1 st.openedDocumentVersions
      sent := st.sent ++ [.didOpen uri 1 text0 lang] } with hst1
  have h1 : st1.isReady = true := by rw [hst1]; exact hr
  have h2 : st1.processRunning = true := by rw [hst1]; exact hp
  have h3 : dictGet uri st1.openedDocumentVersions = some 1 := by
    rw [hst1]
    exact dictGet_dictSet_self ..
  rw [openChanges_log env path lang texts st1 1 h1 h2 h3]
  have hsent : st1.sent = st.sent ++ [SentMessage.didOpen uri 1 text0 lang] := by rw [hst1]
  rw [hsent, List.append_assoc, syncVersionsFor_append, hnone, List.nil_append,
    syncVersionsFor_append, syncVersionsFor_zipWith]
  rw [show syncVersionsFor uri [SentMessage.didOpen uri 1 text0 lang] = [1] from by
    simp [syncVersionsFor]]
  rw [show List.range' 1 (texts.length + 1) = 1 :: List.range' 2 texts.length from rfl]
  rfl

/-- Witness for C6: open plus two changes produce versions `[1, 2, 3]`. -/
theorem C6_witness :
    (freshNotReadyState.isReady = false
      ∧ syncVersionsFor (path_to_uri idEnv (idEnv.absPath "a")) freshNotReadyState.sent = [])
    ∧ syncVersionsFor (path_to_uri idEnv (idEnv.absPath "a"))
        (openChangeCalls idEnv { freshNotReadyState with isReady := true }
          (("a", "t0", "py") :: (["t1", "t2"].map fun t => ("a", t, "py")))).sent
      = List.range' 1 3 :=
  ⟨⟨rfl, rfl⟩,
    C6_version_monotonicity idEnv { freshNotReadyState with isReady := true }
      "a" "py" "t0" ["t1", "t2"] rfl rfl rfl rfl⟩

/-- C7 (confirmed): the LSP-position-to-offset mapping is total and clamped:
the result never exceeds the text length; an empty text maps everything to
offset 0; a line at or past the line count maps to the full text length; and
an in-range line maps to the total length of the preceding lines plus the
character clamped to the target line's length without its terminator. -/
theorem C7_position_clamping (content : List Char) (line character : Int) :
    text_position_from_lsp content line character ≤ content.length
    ∧ (content = [] → text_position_from_lsp content line character = 0)
    ∧ ((splitlinesKeepends content).length ≤ line.toNat →
        text_position_from_lsp content line character = content.length)
    ∧ (line.toNat < (splitlinesKeepends content).length →
        text_position_from_lsp content line character
          = (((splitlinesKeepends content).take line.toNat).map List.length).sum
            + min character.toNat
                (rstripCrLf ((splitlinesKeepends content).getD line.toNat [])).length) := by
  refine ⟨textPosCore_le_length content line.toNat character.toNat, ?_, ?_, ?_⟩
  · intro hc
    subst hc
    rfl
  · intro hline
    by_cases hc : content = []
    · subst hc
      rfl
    · unfold text_position_from_lsp textPosCore
      rw [if_neg (by rw [splitlines_eq_nil_iff]; exact hc), if_pos hline]
  · intro hline
    have hne : splitlinesKeepends content ≠ [] := by
      intro hnil
      rw [hnil] at hline
      simp at hline
    unfold text_position_from_lsp textPosCore
    rw [if_neg hne, if_neg (by omega)]

/-- Witness for C7: line 999999 of the three-line document `"a\nb\nc"` maps
to the full text length, not an error. -/
theorem C7_witness :
    ("a\nb\nc".data).length = 5
    ∧ text_position_from_lsp ("a\nb\nc".data) 999999 0 = ("a\nb\nc".data).length :=
  ⟨rfl, (C7_position_clamping ("a\nb\nc".data) 999999 0).2.2.1 (by decide)⟩

/-- C8 (confirmed): an empty workspace-edit batch returns `(0, 0)` rather
than an error; the returned pair counts exactly the files whose application
succeeded (positive applied count) and the total edits they applied; a file
whose application succeeded keeps its new content in the final filesystem
regardless of later failures (no rollback); and untouched files are
unchanged. -/
theorem C8_workspace_edit_partial_failure (batch : List (String × List Json))
    (fs : String → Option (List Char)) (writeOk : String → Bool)
    (hnodup : (batch.map Prod.fst).Nodup) :
    apply_workspace_edit [] fs writeOk = ((0, 0), fs)
    ∧ (apply_workspace_edit batch fs writeOk).1.1
        = batch.countP (fun pe =>
            decide (0 < (apply_text_edits_to_file (fs pe.1) (writeOk pe.1) pe.2).1))
    ∧ (apply_workspace_edit batch fs writeOk).1.2
        = (batch.map fun pe =>
            (apply_text_edits_to_file (fs pe.1) (writeOk pe.1) pe.2).1).sum
    ∧ (∀ pp ee, (pp, ee) ∈ batch →
        (apply_workspace_edit batch fs writeOk).2 pp
          = match (apply_text_edits_to_file (fs pp) (writeOk pp) ee).2 with
            | some c => some c
            | none => fs pp)
    ∧ (∀ q, q ∉ batch.map Prod.fst → (apply_workspace_edit batch fs writeOk).2 q = fs q) := by
  refine ⟨rfl, ?_⟩
  cases batch with
  | nil =>
    refine ⟨rfl, rfl, ?_, ?_⟩
    · intro pp ee hpe
      simp at hpe
    · intro q _
      rfl
  | cons b rest =>
    have hspec := applyWorkspaceLoop_spec (b :: rest) fs writeOk 0 0 hnodup
    have hne : apply_workspace_edit (b :: rest) fs writeOk
        = applyWorkspaceLoop (b :: rest) fs writeOk 0 0 := by
      unfold apply_workspace_edit
      rw [if_neg (by simp)]
    rw [hne]
    obtain ⟨h1, h2, h3, h4⟩ := hspec
    exact ⟨by rw [h1]; omega, by rw [h2]; omega, h3, h4⟩

/-- Witness for C8: one applicable file and one unreadable file; the batch
reports one changed file with one applied edit. -/
theorem C8_witness :
    ((([("a", [sampleEdit 0 0 0 0 ("z".data)]), ("b", [sampleEdit 0 0 0 0 ("z".data)])] :
        List (String × List Json)).map Prod.fst).Nodup)
    ∧ (apply_workspace_edit []
          (fun p => if p = "a" then some ("ab".data) else none) (fun _ => true)
        = ((0, 0), fun p => if p = "a" then some ("ab".data) else none)
      ∧ (apply_workspace_edit
            [("a", [sampleEdit 0 0 0 0 ("z".data)]), ("b", [sampleEdit 0 0 0 0 ("z".data)])]
            (fun p => if p = "a" then some ("ab".data) else none) (fun _ => true)).1.1
          = ([("a", [sampleEdit 0 0 0 0 ("z".data)]),
              ("b", [sampleEdit 0 0 0 0 ("z".data)])].countP (fun pe =>
              decide (0 < (apply_text_edits_to_file
                ((fun p => if p = "a" then some ("ab".data) else none) pe.1)
                ((fun _ => true) pe.1) pe.2).1)))
      ∧ (apply_workspace_edit
            [("a", [sampleEdit 0 0 0 0 ("z".data)]), ("b", [sampleEdit 0 0 0 0 ("z".data)])]
            (fun p => if p = "a" then some ("ab".data) else none) (fun _ => true)).1.2
          = ([("a", [sampleEdit 0 0 0 0 ("z".data)]),
              ("b", [sampleEdit 0 0 0 0 ("z".data)])].map fun pe =>
              (apply_text_edits_to_file
                ((fun p => if p = "a" then some ("ab".data) else none) pe.1)
                ((fun _ => true) pe.1) pe.2).1).sum
      ∧ (∀ pp ee, (pp, ee) ∈
            ([("a", [sampleEdit 0 0 0 0 ("z".data)]), ("b", [sampleEdit 0 0 0 0 ("z".data)])] :
              List (String × List Json)) →
          (apply_workspace_edit
              [("a", [sampleEdit 0 0 0 0 ("z".data)]), ("b", [sampleEdit 0 0 0 0 ("z".data)])]
              (fun p => if p = "a" then some ("ab".data) else none) (fun _ => true)).2 pp
            = match (apply_text_edits_to_file
                ((fun p => if p = "a" then some ("ab".data) else none) pp)
                ((fun _ => true) pp) ee).2 with
              | some c => some c
              | none => (fun p => if p = "a" then some ("ab".data) else none) pp)
      ∧ (∀ q, q ∉ ([("a", [sampleEdit 0 0 0 0 ("z".data)]),
              ("b", [sampleEdit 0 0 0 0 ("z".data)])] :
                List (String × List Json)).map Prod.fst →
          (apply_workspace_edit
              [("a", [sampleEdit 0 0 0 0 ("z".data)]), ("b", [sampleEdit 0 0 0 0 ("z".data)])]
              (fun p => if p = "a" then some ("ab".data) else none) (fun _ => true)).2 q
            = (fun p => if p = "a" then some ("ab".data) else none) q)) :=
  ⟨by decide,
    C8_workspace_edit_partial_failure
      [("a", [sampleEdit 0 0 0 0 ("z".data)]), ("b", [sampleEdit 0 0 0 0 ("z".data)])]
      (fun p => if p = "a" then some ("ab".data) else none) (fun _ => true) (by decide)⟩

/-- C9 (confirmed): a frame whose `Content-Length` header carries a negative
integer is clamped to an expected body length of 0: the header bytes are
consumed, the empty body fails `json.loads` and is reported as a parse error
for that message only, and the decoder goes on to decode the next message in
the stream, ending with an empty buffer and no pending length. -/
theorem C9_negative_content_length (m : Int) (hm : m < 0) (next_payload : Json) :
    runDrain ((("Content-Length: ".data) ++ intRepr m)
        ++ ('\r' :: '\n' :: '\r' :: '\n' :: encode_message next_payload)) none
      = (([], none), [DecodedItem.parseError, DecodedItem.message next_payload]) :=
  runDrain_negative_header m hm next_payload

/-- Witness for C9 at `Content-Length: -5` followed by an encoded `null`. -/
theorem C9_witness :
    (-5 : Int) < 0
    ∧ runDrain ((("Content-Length: ".data) ++ intRepr (-5))
          ++ ('\r' :: '\n' :: '\r' :: '\n' :: encode_message Json.null)) none
        = (([], none), [DecodedItem.parseError, DecodedItem.message Json.null]) :=
  ⟨by decide, C9_negative_content_length (-5) (by decide) Json.null⟩

/-- C10 (confirmed): `ensure_started` on a `root_path` that is not an
existing directory silently substitutes the current working directory as the
normalized root: the spawn succeeds (no failure is reported), and the new
process records the cwd as its working directory, root path and initialize
`rootUri`. -/
theorem C10_nonexistent_root_uses_cwd (env : Env) (st : ClientState) (root_path : String)
    (hrun : st.processRunning = false) (hdir : env.isDir (env.absPath root_path) = false)
    (havail : env.serverAvailable = true) :
    (ensure_started env st root_path).2 = true
    ∧ (ensure_started env st root_path).1.spawnWorkingDir = some env.cwd
    ∧ (ensure_started env st root_path).1.rootPath = some env.cwd
    ∧ (ensure_started env st root_path).1.sent
        = [SentMessage.request 1 "initialize" (some (path_to_uri env env.cwd))] := by
  rw [ensure_started_not_running env st root_path hrun, if_neg (by simp [hdir])]
  rw [start_process_eq env env.cwd st havail]
  exact ⟨rfl, rfl, rfl, rfl⟩

/-- Witness for C10 at an environment whose directories never exist. -/
theorem C10_witness :
    (({ idEnv with isDir := fun _ => false } : Env).isDir
        (({ idEnv with isDir := fun _ => false } : Env).absPath "missing") = false
      ∧ ({ idEnv with isDir := fun _ => false } : Env).serverAvailable = true)
    ∧ ((ensure_started { idEnv with isDir := fun _ => false }
          { freshNotReadyState with processRunning := false } "missing").2 = true
      ∧ (ensure_started { idEnv with isDir := fun _ => false }
          { freshNotReadyState with processRunning := false } "missing").1.spawnWorkingDir
          = some ({ idEnv with isDir := fun _ => false } : Env).cwd
      ∧ (ensure_started { idEnv with isDir := fun _ => false }
          { freshNotReadyState with processRunning := false } "missing").1.rootPath
          = some ({ idEnv with isDir := fun _ => false } : Env).cwd
      ∧ (ensure_started { idEnv with isDir := fun _ => false }
          { freshNotReadyState with processRunning := false } "missing").1.sent
          = [SentMessage.request 1 "initialize"
              (some (path_to_uri { idEnv with isDir := fun _ => false }
                ({ idEnv with isDir := fun _ => false } : Env).cwd))]) :=
  ⟨⟨rfl, rfl⟩,
    C10_nonexistent_root_uses_cwd { idEnv with isDir := fun _ => false }
      { freshNotReadyState with processRunning := false } "missing" rfl rfl rfl⟩

end Temcode
